import Mathlib

/- Verification of the kvs storage engine (src/kvs/src/lib.rs): a Bitcask-style
   append-only key-value store with an in-memory key directory, segment log
   files, a pre-write compaction gate and a log compactor.

   Byte strings are modelled as `List Char`, one `Char` per byte (keys and
   values are ASCII-compatible `String`s over the same alphabet; `len` in the
   source is the list length here). -/

namespace Kvs

/-- One command record, mirroring `enum CommandLog` in the source. -/
inductive CommandLog where
  | Set (key value : String)
  | Remove (key : String)
deriving DecidableEq

/-- `serde_json` escaping of one character inside a JSON string literal
    (quote, backslash and the control characters BS HT LF FF CR get two-byte
    escapes, remaining control characters get a `\u00XX` escape, everything
    else is emitted verbatim). -/
def escChar (c : Char) : List Char :=
  if c = '"' then ['\\', '"']
  else if c = '\\' then ['\\', '\\']
  else if c = '\x08' then ['\\', 'b']
  else if c = '\t' then ['\\', 't']
  else if c = '\n' then ['\\', 'n']
  else if c = '\x0c' then ['\\', 'f']
  else if c = '\r' then ['\\', 'r']
  else if c.toNat < 32 then
    ['\\', 'u', '0', '0', Nat.digitChar (c.toNat / 16), Nat.digitChar (c.toNat % 16)]
  else [c]

/-- `serde_json` escaping of a whole string body. -/
def escape (cs : List Char) : List Char := (cs.map escChar).flatten

/-- Scaffolding of `to_string(&CommandLog::Set)`: the bytes before the key. -/
def setPre : List Char :=
  ['\x7b', '"', 'S', 'e', 't', '"', ':', '\x7b', '"', 'k', 'e', 'y', '"', ':', '"']

/-- Scaffolding between the key and the value of a serialized `Set`. -/
def setMid : List Char := ['"', ',', '"', 'v', 'a', 'l', 'u', 'e', '"', ':', '"']

/-- Scaffolding after the value of a serialized `Set`. -/
def setSuf : List Char := ['"', '\x7d', '\x7d']

/-- Scaffolding of `to_string(&CommandLog::Remove)`: the bytes before the key. -/
def remPre : List Char :=
  ['\x7b', '"', 'R', 'e', 'm', 'o', 'v', 'e', '"', ':', '\x7b', '"', 'k', 'e', 'y', '"', ':', '"']

/-- Scaffolding after the key of a serialized `Remove`. -/
def remSuf : List Char := ['"', '\x7d', '\x7d']

/-- `serde_json::to_string` of one record: one line of canonical JSON (the
    source serializes with a tag discriminator and fields in declaration
    order, e.g. `\x7b"Set":\x7b"key":"k","value":"v"\x7d\x7d`). -/
def encodeL : CommandLog → List Char
  | .Set k v => setPre ++ escape k.data ++ setMid ++ escape v.data ++ setSuf
  | .Remove k => remPre ++ escape k.data ++ remSuf

/-- Inverse of the two-byte escapes accepted by the JSON parser. -/
def unescChar (c : Char) : Option Char :=
  if c = '"' then some '"'
  else if c = '\\' then some '\\'
  else if c = '/' then some '/'
  else if c = 'b' then some '\x08'
  else if c = 't' then some '\t'
  else if c = 'n' then some '\n'
  else if c = 'f' then some '\x0c'
  else if c = 'r' then some '\r'
  else none

/-- Value of one hexadecimal digit. -/
def hexVal (c : Char) : Option Nat :=
  if 48 ≤ c.toNat ∧ c.toNat ≤ 57 then some (c.toNat - 48)
  else if 97 ≤ c.toNat ∧ c.toNat ≤ 102 then some (c.toNat - 87)
  else if 65 ≤ c.toNat ∧ c.toNat ≤ 70 then some (c.toNat - 55)
  else none

/-- JSON string-literal parser: consumes the body and the closing quote,
    returning the decoded body and the remaining input.  Raw control
    characters are rejected, as `serde_json::from_str` rejects them. -/
def parseStr : List Char → Option (List Char × List Char)
  | [] => none
  | c :: rest =>
    if c = '"' then some ([], rest)
    else if c = '\\' then
      match rest with
      | [] => none
      | e :: rest2 =>
        if e = 'u' then
          match rest2 with
          | h1 :: h2 :: h3 :: h4 :: rest3 =>
            match hexVal h1, hexVal h2, hexVal h3, hexVal h4 with
            | some a, some b, some c2, some d =>
              (parseStr rest3).map fun p =>
                (Char.ofNat (((a * 16 + b) * 16 + c2) * 16 + d) :: p.1, p.2)
            | _, _, _, _ => none
          | _ => none
        else
          match unescChar e with
          | some c2 => (parseStr rest2).map fun p => (c2 :: p.1, p.2)
          | none => none
    else if c.toNat < 32 then none
    else (parseStr rest).map fun p => (c :: p.1, p.2)

/-- Match a literal prefix, returning the remaining input. -/
def dropPre : List Char → List Char → Option (List Char)
  | [], r => some r
  | _ :: _, [] => none
  | a :: l, b :: r => if a = b then dropPre l r else none

/-- `serde_json::from_str::<CommandLog>` on one line, restricted to the
    whitespace-free canonical shape that `encodeL` (and the source's
    serializer) emits; escape sequences inside the strings are parsed in
    full generality. -/
def decodeL (line : List Char) : Option CommandLog :=
  match dropPre setPre line with
  | some r1 =>
    match parseStr r1 with
    | some (k, r2) =>
      match dropPre (setMid.drop 1) r2 with
      | some r3 =>
        match parseStr r3 with
        | some (v, r4) =>
          if r4 = setSuf.drop 1 then some (.Set (String.mk k) (String.mk v)) else none
        | none => none
      | none => none
    | none => none
  | none =>
    match dropPre remPre line with
    | some r1 =>
      match parseStr r1 with
      | some (k, r2) =>
        if r2 = remSuf.drop 1 then some (.Remove (String.mk k)) else none
      | none => none
    | none => none

theorem dropPre_append (l r : List Char) : dropPre l (l ++ r) = some r := by
  induction l with
  | nil => rfl
  | cons a l ih => simp [dropPre, ih]

theorem hexVal_digitChar : ∀ n < 16, hexVal (Nat.digitChar n) = some n := by decide

theorem parseStr_quote (rest : List Char) : parseStr ('"' :: rest) = some ([], rest) := by
  simp [parseStr.eq_def]

theorem parseStr_esc (e c2 : Char) (he : ¬ e = 'u') (h : unescChar e = some c2)
    (rest : List Char) :
    parseStr ('\\' :: e :: rest) = (parseStr rest).map fun p => (c2 :: p.1, p.2) := by
  rw [parseStr.eq_def]
  simp [he, h]

theorem parseStr_u (h1 h2 h3 h4 : Char) (a b c d : Nat) (ha : hexVal h1 = some a)
    (hb : hexVal h2 = some b) (hc : hexVal h3 = some c) (hd : hexVal h4 = some d)
    (rest : List Char) :
    parseStr ('\\' :: 'u' :: h1 :: h2 :: h3 :: h4 :: rest) =
      (parseStr rest).map fun p =>
        (Char.ofNat (((a * 16 + b) * 16 + c) * 16 + d) :: p.1, p.2) := by
  rw [parseStr.eq_def]
  simp [ha, hb, hc, hd]

theorem parseStr_other (c : Char) (h1 : ¬ c = '"') (h2 : ¬ c = '\\') (h3 : ¬ c.toNat < 32)
    (rest : List Char) :
    parseStr (c :: rest) = (parseStr rest).map fun p => (c :: p.1, p.2) := by
  rw [parseStr.eq_def]
  simp [h1, h2, h3]

theorem parseStr_escape (cs : List Char) :
    ∀ rest, parseStr (escape cs ++ '"' :: rest) = some (cs, rest) := by
  induction cs with
  | nil => intro rest; simp [escape, parseStr_quote]
  | cons c cs ih =>
    intro rest
    have hesc : escape (c :: cs) = escChar c ++ escape cs := by
      simp [escape]
    rw [hesc, List.append_assoc]
    by_cases h1 : c = '"'
    · subst h1
      rw [show escChar '"' = ['\\', '"'] from by decide]
      simp only [List.cons_append, List.nil_append]
      rw [parseStr_esc '"' '"' (by decide) (by decide), ih]
      rfl
    · by_cases h2 : c = '\\'
      · subst h2
        rw [show escChar '\\' = ['\\', '\\'] from by decide]
        simp only [List.cons_append, List.nil_append]
        rw [parseStr_esc '\\' '\\' (by decide) (by decide), ih]
        rfl
      · by_cases h3 : c = '\x08'
        · subst h3
          rw [show escChar '\x08' = ['\\', 'b'] from by decide]
          simp only [List.cons_append, List.nil_append]
          rw [parseStr_esc 'b' '\x08' (by decide) (by decide), ih]
          rfl
        · by_cases h4 : c = '\t'
          · subst h4
            rw [show escChar '\t' = ['\\', 't'] from by decide]
            simp only [List.cons_append, List.nil_append]
            rw [parseStr_esc 't' '\t' (by decide) (by decide), ih]
            rfl
          · by_cases h5 : c = '\n'
            · subst h5
              rw [show escChar '\n' = ['\\', 'n'] from by decide]
              simp only [List.cons_append, List.nil_append]
              rw [parseStr_esc 'n' '\n' (by decide) (by decide), ih]
              rfl
            · by_cases h6 : c = '\x0c'
              · subst h6
                rw [show escChar '\x0c' = ['\\', 'f'] from by decide]
                simp only [List.cons_append, List.nil_append]
                rw [parseStr_esc 'f' '\x0c' (by decide) (by decide), ih]
                rfl
              · by_cases h7 : c = '\r'
                · subst h7
                  rw [show escChar '\r' = ['\\', 'r'] from by decide]
                  simp only [List.cons_append, List.nil_append]
                  rw [parseStr_esc 'r' '\r' (by decide) (by decide), ih]
                  rfl
                · by_cases h8 : c.toNat < 32
                  · have hdiv : c.toNat / 16 < 16 := by omega
                    have hmod : c.toNat % 16 < 16 := Nat.mod_lt _ (by omega)
                    rw [show escChar c =
                          ['\\', 'u', '0', '0', Nat.digitChar (c.toNat / 16),
                            Nat.digitChar (c.toNat % 16)] by
                      unfold escChar
                      rw [if_neg h1, if_neg h2, if_neg h3, if_neg h4, if_neg h5, if_neg h6,
                        if_neg h7, if_pos h8]]
                    simp only [List.cons_append, List.nil_append]
                    rw [parseStr_u _ _ _ _ 0 0 (c.toNat / 16) (c.toNat % 16) (by decide)
                      (by decide) (hexVal_digitChar _ hdiv) (hexVal_digitChar _ hmod), ih]
                    have hval : ((0 * 16 + 0) * 16 + c.toNat / 16) * 16 + c.toNat % 16 =
                        c.toNat := by omega
                    rw [hval, Char.ofNat_toNat]
                    rfl
                  · rw [show escChar c = [c] by
                      unfold escChar
                      rw [if_neg h1, if_neg h2, if_neg h3, if_neg h4, if_neg h5, if_neg h6,
                        if_neg h7, if_neg h8]]
                    simp only [List.cons_append, List.nil_append]
                    rw [parseStr_other c h1 h2 h8, ih]
                    rfl

theorem decodeL_encodeL (c : CommandLog) : decodeL (encodeL c) = some c := by
  cases c with
  | Set k v =>
    have hmid : setMid = '"' :: setMid.drop 1 := by decide
    have hsuf : setSuf = '"' :: setSuf.drop 1 := by decide
    have key : setPre ++ escape k.data ++ setMid ++ escape v.data ++ setSuf =
        setPre ++ (escape k.data ++ '"' :: ((setMid.drop 1) ++
          (escape v.data ++ '"' :: setSuf.drop 1))) := by
      conv_lhs => rw [hmid, hsuf]
      simp only [List.cons_append, List.append_assoc]
    show decodeL (setPre ++ escape k.data ++ setMid ++ escape v.data ++ setSuf) =
      some (.Set k v)
    rw [key]
    unfold decodeL
    simp only [dropPre_append, parseStr_escape]
    simp
  | Remove k =>
    have hpre : ∀ r : List Char, dropPre setPre (remPre ++ r) = none := by
      intro r
      show dropPre setPre ('\x7b' :: '"' :: 'R' :: (remPre.drop 3 ++ r)) = none
      rfl
    have hsuf : remSuf = '"' :: remSuf.drop 1 := by decide
    have key : remPre ++ escape k.data ++ remSuf =
        remPre ++ (escape k.data ++ '"' :: remSuf.drop 1) := by
      conv_lhs => rw [hsuf]
      simp only [List.cons_append, List.append_assoc]
    show decodeL (remPre ++ escape k.data ++ remSuf) = some (.Remove k)
    rw [key]
    unfold decodeL
    simp only [hpre, dropPre_append, parseStr_escape]
    simp

/-- No byte of an escaped character is a newline. -/
theorem escChar_ne_nl (c x : Char) (hx : x ∈ escChar c) : x ≠ '\n' := by
  have hdig : ∀ n < 16, Nat.digitChar n ≠ '\n' := by decide
  unfold escChar at hx
  split at hx
  · simp at hx; rcases hx with rfl | rfl <;> decide
  · split at hx
    · simp at hx; rcases hx with rfl | rfl <;> decide
    · split at hx
      · simp at hx; rcases hx with rfl | rfl <;> decide
      · split at hx
        · simp at hx; rcases hx with rfl | rfl <;> decide
        · split at hx
          · simp at hx; rcases hx with rfl | rfl <;> decide
          · split at hx
            · simp at hx; rcases hx with rfl | rfl <;> decide
            · split at hx
              · simp at hx; rcases hx with rfl | rfl <;> decide
              · split at hx
                · rename_i h8
                  have h1 : c.toNat / 16 < 16 := by omega
                  have h2 : c.toNat % 16 < 16 := Nat.mod_lt _ (by omega)
                  have hd1 := hdig _ h1
                  have hd2 := hdig _ h2
                  intro hc
                  subst hc
                  simp at hx
                  rcases hx with h | h
                  · exact hd1 h.symm
                  · exact hd2 h.symm
                · rename_i h8
                  simp at hx
                  subst hx
                  intro hc
                  subst hc
                  exact h8 (by decide)

/-- No byte of an encoded record is a newline: records are self-delimiting. -/
theorem encodeL_ne_nl (c : CommandLog) : '\n' ∉ encodeL c := by
  have hesc : ∀ l : List Char, '\n' ∉ escape l := by
    intro l hmem
    rcases List.mem_flatten.1 hmem with ⟨w, hw, hnw⟩
    rcases List.mem_map.1 hw with ⟨ch, _, rfl⟩
    exact escChar_ne_nl ch _ hnw rfl
  cases c with
  | Set k v =>
    intro hmem
    simp only [encodeL, List.append_assoc, List.mem_append] at hmem
    rcases hmem with h | h | h | h | h
    · revert h; decide
    · exact hesc _ h
    · revert h; decide
    · exact hesc _ h
    · revert h; decide
  | Remove k =>
    intro hmem
    simp only [encodeL, List.append_assoc, List.mem_append] at hmem
    rcases hmem with h | h | h
    · revert h; decide
    · exact hesc _ h
    · revert h; decide

/-! ## Segment file names, their ordering and enumeration -/

/-- Decimal digits of `n` (most significant first), with explicit fuel so the
    definition is structural; any fuel above `n` yields the digits of `n`. -/
def natDigitsAux : Nat → Nat → List Char
  | 0, _ => []
  | f + 1, n =>
    if n < 10 then [Nat.digitChar n]
    else natDigitsAux f (n / 10) ++ [Nat.digitChar (n % 10)]

/-- Decimal digit string of `n`. -/
def natDigits (n : Nat) : List Char := natDigitsAux (n + 1) n

theorem natDigitsAux_eq (n : Nat) : ∀ f, n < f → natDigitsAux f n = natDigits n := by
  induction n using Nat.strong_induction_on with
  | _ n ih =>
    intro f hf
    match f, hf with
    | f' + 1, hf =>
      show natDigitsAux (f' + 1) n = natDigitsAux (n + 1) n
      by_cases h10 : n < 10
      · simp [natDigitsAux, h10]
      · have hrec : n / 10 < n := Nat.div_lt_self (by omega) (by omega)
        have h1 : natDigitsAux f' (n / 10) = natDigits (n / 10) :=
          ih _ hrec _ (by omega)
        have h2 : natDigitsAux n (n / 10) = natDigits (n / 10) :=
          ih _ hrec _ (by omega)
        simp [natDigitsAux, h10, h1, h2]

/-- Value of one decimal digit character. -/
def digVal (c : Char) : Nat := c.toNat - 48

/-- Numeric value of a decimal digit string. -/
def digitsToNat (l : List Char) : Nat := l.foldl (fun a c => 10 * a + digVal c) 0

theorem digitsToNat_append (l : List Char) (c : Char) :
    digitsToNat (l ++ [c]) = 10 * digitsToNat l + digVal c := by
  simp [digitsToNat, List.foldl_append]

theorem digVal_digitChar : ∀ n < 10, digVal (Nat.digitChar n) = n := by decide

theorem digitsToNat_natDigits (n : Nat) : digitsToNat (natDigits n) = n := by
  induction n using Nat.strong_induction_on with
  | _ n ih =>
    by_cases h10 : n < 10
    · simp [natDigits, natDigitsAux, h10, digitsToNat, digVal_digitChar n h10]
    · have hrec : n / 10 < n := Nat.div_lt_self (by omega) (by omega)
      have hdig : natDigits n = natDigits (n / 10) ++ [Nat.digitChar (n % 10)] := by
        show natDigitsAux (n + 1) n = _
        rw [natDigitsAux, if_neg h10, natDigitsAux_eq _ _ (by omega)]
      have hval : digVal (Nat.digitChar (n % 10)) = n % 10 :=
        digVal_digitChar _ (Nat.mod_lt _ (by omega))
      rw [hdig, digitsToNat_append, ih _ hrec, hval]
      omega

theorem natDigits_inj {a b : Nat} (h : natDigits a = natDigits b) : a = b := by
  have := digitsToNat_natDigits a
  rw [h, digitsToNat_natDigits] at this
  omega

/-- `new_log_file_name()`: `kvlog_<digits>.cmdlog`.  The source derives the
    digit block from a strictly increasing nanosecond timestamp; the model
    renders the engine's name counter as a 19-digit number (a leading `1`
    and the counter zero-padded to 18 digits), so that lexicographic
    filename order coincides with creation order exactly as for timestamps. -/
def mkLogFileName (n : Nat) : String :=
  String.mk (('k' :: 'v' :: 'l' :: 'o' :: 'g' :: '_' :: '1' ::
    (List.replicate (18 - (natDigits n).length) '0' ++ natDigits n)) ++
    ['.', 'c', 'm', 'd', 'l', 'o', 'g'])

theorem digitsToNat_zeros (k : Nat) (l : List Char) :
    digitsToNat (List.replicate k '0' ++ l) = digitsToNat l := by
  have hz : ∀ m, (List.replicate m '0').foldl (fun a c => 10 * a + digVal c) 0 = 0 := by
    intro m
    induction m with
    | zero => rfl
    | succ m ih => simpa [List.replicate_succ, List.foldl_cons] using ih
  show (List.replicate k '0' ++ l).foldl (fun a c => 10 * a + digVal c) 0 = digitsToNat l
  rw [List.foldl_append, hz k]
  rfl

theorem mkLogFileName_inj {a b : Nat} (h : mkLogFileName a = mkLogFileName b) : a = b := by
  unfold mkLogFileName at h
  have h2 := congrArg String.data h
  have h3 := List.append_cancel_right h2
  simp only [List.cons.injEq, true_and] at h3
  have h4 := congrArg digitsToNat h3
  rw [digitsToNat_zeros, digitsToNat_zeros, digitsToNat_natDigits, digitsToNat_natDigits] at h4
  exact h4

/-- `extension() == Some("cmdlog")` on a file name: there is a dot, a
    nonempty stem before it, and `cmdlog` after it. -/
def extCmdlog (name : String) : Bool :=
  let r := name.data.reverse
  let ext := r.takeWhile (fun c => c != '.')
  decide (ext.length + 1 < r.length) && decide (ext = ['g', 'o', 'l', 'd', 'm', 'c'])

/-- Byte-lexicographic order on names (Rust sorts `PathBuf`s byte-wise; all
    paths share the same directory prefix, so comparing file names agrees). -/
def charListLe : List Char → List Char → Bool
  | [], _ => true
  | _ :: _, [] => false
  | a :: l, b :: r =>
    if a.toNat < b.toNat then true
    else if a.toNat = b.toNat then charListLe l r
    else false

/-- Name comparison used to sort segment lists. -/
def strLe (a b : String) : Bool := charListLe a.data b.data

theorem charListLe_total (l r : List Char) : charListLe l r = true ∨ charListLe r l = true := by
  induction l generalizing r with
  | nil => left; rfl
  | cons a l ih =>
    cases r with
    | nil => right; rfl
    | cons b r =>
      rcases Nat.lt_trichotomy a.toNat b.toNat with h | h | h
      · left; simp [charListLe, h]
      · rcases ih r with hl | hr
        · left; simp [charListLe, h, hl]
        · right; simp [charListLe, h.symm, hr]
      · right; simp [charListLe, h]

theorem charListLe_trans {l m r : List Char} (h1 : charListLe l m = true)
    (h2 : charListLe m r = true) : charListLe l r = true := by
  induction l generalizing m r with
  | nil => rfl
  | cons a l ih =>
    cases m with
    | nil => simp [charListLe] at h1
    | cons b m =>
      cases r with
      | nil => simp [charListLe] at h2
      | cons c r =>
        simp only [charListLe] at h1 h2 ⊢
        by_cases hab : a.toNat < b.toNat
        · by_cases hbc : b.toNat < c.toNat
          · simp [show a.toNat < c.toNat by omega]
          · simp only [if_neg hbc] at h2
            by_cases hbc2 : b.toNat = c.toNat
            · simp [show a.toNat < c.toNat by omega]
            · simp [hbc2] at h2
        · simp only [if_neg hab] at h1
          by_cases hab2 : a.toNat = b.toNat
          · simp only [if_pos hab2] at h1
            by_cases hbc : b.toNat < c.toNat
            · simp [show a.toNat < c.toNat by omega]
            · simp only [if_neg hbc] at h2
              by_cases hbc2 : b.toNat = c.toNat
              · simp only [if_pos hbc2] at h2
                have : ¬ a.toNat < c.toNat := by omega
                simp [this, show a.toNat = c.toNat by omega, ih h1 h2]
              · simp [hbc2] at h2
          · simp [hab2] at h1

/-- Insert a name into an ascending list. -/
def insertSorted (x : String) : List String → List String
  | [] => [x]
  | y :: l => if strLe x y then x :: y :: l else y :: insertSorted x l

/-- `log_files.sort()`: sort names ascending. -/
def sortNames : List String → List String
  | [] => []
  | x :: l => insertSorted x (sortNames l)

theorem perm_insertSorted (x : String) (l : List String) :
    List.Perm (insertSorted x l) (x :: l) := by
  induction l with
  | nil => exact List.Perm.refl _
  | cons y l ih =>
    by_cases h : strLe x y
    · simp [insertSorted, h]
    · simp only [insertSorted, if_neg h]
      exact ((ih.cons y).trans (List.Perm.swap x y l))

theorem perm_sortNames (l : List String) : List.Perm (sortNames l) l := by
  induction l with
  | nil => exact List.Perm.refl _
  | cons x l ih =>
    exact (perm_insertSorted x (sortNames l)).trans (ih.cons x)

theorem mem_sortNames {x : String} {l : List String} : x ∈ sortNames l ↔ x ∈ l :=
  (perm_sortNames l).mem_iff

theorem sorted_insertSorted (x : String) (l : List String)
    (h : List.Sorted (fun a b => strLe a b = true) l) :
    List.Sorted (fun a b => strLe a b = true) (insertSorted x l) := by
  induction l with
  | nil => simp [insertSorted]
  | cons y l ih =>
    by_cases hxy : strLe x y
    · simp only [insertSorted, if_pos hxy]
      refine List.sorted_cons.2 ⟨?_, h⟩
      intro z hz
      rcases List.mem_cons.1 hz with rfl | hz
      · exact hxy
      · exact charListLe_trans hxy (List.rel_of_sorted_cons h z hz)
    · simp only [insertSorted, if_neg hxy]
      have hyx : strLe y x = true := by
        rcases charListLe_total x.data y.data with h1 | h1
        · exact absurd h1 hxy
        · exact h1
      refine List.sorted_cons.2 ⟨?_, ih h.of_cons⟩
      intro z hz
      rcases List.mem_cons.1 ((perm_insertSorted x l).mem_iff.1 hz) with rfl | hz
      · exact hyx
      · exact List.rel_of_sorted_cons h z hz

theorem sorted_sortNames (l : List String) :
    List.Sorted (fun a b => strLe a b = true) (sortNames l) := by
  induction l with
  | nil => simp [sortNames]
  | cons x l ih => exact sorted_insertSorted x _ ih

/-! ## Segment file contents as byte lists -/

/-- Bytes of a segment file holding the given record lines: each line is
    followed by the newline that `writeln!` appends. -/
def segContent (lines : List (List Char)) : List Char :=
  (lines.map (fun l => l ++ ['\n'])).flatten

/-- `BufRead::lines()`: split a byte stream at newlines; a final fragment
    not terminated by a newline is yielded as a line as well. -/
def splitOnNL : List Char → List (List Char)
  | [] => []
  | c :: rest =>
    if c = '\n' then [] :: splitOnNL rest
    else
      match splitOnNL rest with
      | [] => [[c]]
      | l :: ls => (c :: l) :: ls

theorem splitOnNL_line (l : List Char) (h : '\n' ∉ l) (r : List Char) :
    splitOnNL (l ++ '\n' :: r) = l :: splitOnNL r := by
  induction l with
  | nil => simp [splitOnNL]
  | cons c cs ih =>
    have hc : ¬ c = '\n' := fun hh => h (hh ▸ List.mem_cons_self c cs)
    have hcs : '\n' ∉ cs := fun hh => h (List.mem_cons_of_mem c hh)
    have hrec := ih hcs
    have hstep : splitOnNL (c :: (cs ++ '\n' :: r)) =
        match splitOnNL (cs ++ '\n' :: r) with
        | [] => [[c]]
        | l :: ls => (c :: l) :: ls := by
      rw [splitOnNL.eq_def]
      simp [hc]
    rw [List.cons_append, hstep, hrec]

theorem splitOnNL_segContent (lines : List (List Char))
    (h : ∀ l ∈ lines, '\n' ∉ l) : splitOnNL (segContent lines) = lines := by
  induction lines with
  | nil => rfl
  | cons l ls ih =>
    have : segContent (l :: ls) = l ++ '\n' :: segContent ls := by
      simp [segContent]
    rw [this, splitOnNL_line l (h l (List.mem_cons_self l ls)),
      ih (fun x hx => h x (List.mem_cons_of_mem l hx))]

theorem segContent_append (a b : List (List Char)) :
    segContent (a ++ b) = segContent a ++ segContent b := by
  simp [segContent]

theorem segContent_length_cons (l : List Char) (ls : List (List Char)) :
    (segContent (l :: ls)).length = l.length + 1 + (segContent ls).length := by
  simp [segContent]
  omega

/-! ## Association-list model of the hash maps -/

/-- `HashMap::get`, first match wins. -/
def lookupA {α : Type} : List (String × α) → String → Option α
  | [], _ => none
  | (k, v) :: l, key => if k = key then some v else lookupA l key

/-- `HashMap::remove`. -/
def eraseA {α : Type} (key : String) (l : List (String × α)) : List (String × α) :=
  l.filter (fun p => p.1 != key)

/-- `HashMap::insert`. -/
def insertA {α : Type} (key : String) (v : α) (l : List (String × α)) :
    List (String × α) :=
  (key, v) :: eraseA key l

theorem lookupA_insertA_self {α : Type} (key : String) (v : α) (l : List (String × α)) :
    lookupA (insertA key v l) key = some v := by
  simp [insertA, lookupA]

theorem lookupA_insertA_ne {α : Type} {key k : String} (h : ¬ key = k) (v : α)
    (l : List (String × α)) : lookupA (insertA key v l) k = lookupA l k := by
  simp only [insertA, lookupA, if_neg h]
  induction l with
  | nil => rfl
  | cons p l ih =>
    by_cases hp : p.1 = key
    · simp only [eraseA, List.filter_cons, hp]
      simp only [bne_self_eq_false]
      rw [show lookupA (p :: l) k = lookupA l k by
        cases p with
        | mk a b =>
          simp only [lookupA]
          rw [if_neg]
          simp at hp
          rw [hp]
          exact h]
      exact ih
    · cases p with
      | mk a b =>
        simp only [eraseA, List.filter_cons]
        simp only at hp
        rw [if_pos (by simpa using hp)]
        simp only [lookupA]
        by_cases hak : a = k
        · simp [hak]
        · rw [if_neg hak, if_neg hak]
          exact ih

theorem lookupA_eraseA_self {α : Type} (key : String) (l : List (String × α)) :
    lookupA (eraseA key l) key = none := by
  induction l with
  | nil => rfl
  | cons p l ih =>
    cases p with
    | mk a b =>
      by_cases ha : a = key
      · simpa [eraseA, List.filter_cons, ha] using ih
      · simp only [eraseA, List.filter_cons] at ih ⊢
        rw [if_pos (by simpa using ha)]
        simpa [lookupA, ha] using ih

theorem lookupA_eraseA_ne {α : Type} {key k : String} (h : ¬ key = k)
    (l : List (String × α)) : lookupA (eraseA key l) k = lookupA l k := by
  induction l with
  | nil => rfl
  | cons p l ih =>
    cases p with
    | mk a b =>
      by_cases ha : a = key
      · subst ha
        simp only [eraseA, List.filter_cons, bne_self_eq_false]
        simp only [lookupA, if_neg h]
        exact ih
      · simp only [eraseA, List.filter_cons] at ih ⊢
        rw [if_pos (by simpa using ha)]
        simp only [lookupA]
        by_cases hak : a = k
        · simp [hak]
        · rw [if_neg hak, if_neg hak]
          exact ih

/-! ## Engine state and operations -/

/-- `struct LogPosition`. -/
structure LogPosition where
  pos : Nat
  log_file_name : String
deriving DecidableEq

/-- Failure outcomes: the two `KvSError` variants, a decode error surfaced
    through `?` in `get`, and a Rust `unwrap`/`panic!` abort. -/
inductive Failure where
  | keyNotProvided
  | keyNotFound
  | corruptLine
  | panicked
deriving DecidableEq

/-- `COMPACTION_THRESHOLD = 1024 * 1024`. -/
def COMPACTION_THRESHOLD : Nat := 1024 * 1024

/-- The observable state of a `KvStore` and its directory:
    `files` is the on-disk directory in creation order (name, record lines);
    `keyDir` is the in-memory key directory;
    `readers` is the reader pool, mapping a segment name to the byte cursor
    of its pooled `BufReader` (reads seek it, sequential streaming continues
    from it);
    `curr`/`currSize` mirror the writer pool's active segment and its size
    counter (the source retains old writers in its map but never uses them);
    `nameCtr` drives fresh-name generation, standing for the strictly
    increasing nanosecond clock of `new_log_file_name`.
    There is no buffered-but-unflushed data to model: every
    `NamedBufWriter::write` calls `stream_position()`, whose `Seek`
    implementation flushes the `BufWriter`, so writes are always on disk. -/
structure KvState where
  files : List (String × List (List Char))
  keyDir : List (String × LogPosition)
  readers : List (String × Nat)
  curr : String
  currSize : Nat
  nameCtr : Nat
deriving DecidableEq

/-- `list_log_files`: file names with extension `cmdlog`, sorted ascending
    (paths share the directory prefix, so path order is file-name order). -/
def listLogFiles (files : List (String × List (List Char))) : List String :=
  sortNames ((files.map (fun p => p.1)).filter extCmdlog)

/-- On-disk byte size of a segment (`metadata.len()`): every record line
    plus its newline. -/
def fileSize (lines : List (List Char)) : Nat := (segContent lines).length

/-- `WriterPool::new_writer` (with `NamedBufWriter::new`, which creates the
    file on disk): allocate a fresh segment, make it active, reset the size
    counter. -/
def newWriter (s : KvState) : KvState :=
  let name := mkLogFileName s.nameCtr
  { s with
      files := s.files ++ [(name, [])]
      curr := name
      currSize := 0
      nameCtr := s.nameCtr + 1 }

/-- `ReaderPool::add_reader`: open `dir/name` and pool it (cursor 0). -/
def addReader (name : String) (s : KvState) : KvState :=
  { s with readers := insertA name 0 s.readers }

/-- `new_writer()` directly followed by `add_reader(curr)`, as on compaction
    entry and on rollover of a kept record. -/
def freshSegment (s : KvState) : KvState :=
  let s' := newWriter s
  addReader s'.curr s'

/-- `WriterPool::write` with `NamedBufWriter::write`: append `line` plus a
    newline to the active segment; the returned position is the byte offset
    at which `line` begins (`stream_position() - len - 1`); `curr_size`
    grows by `len(line)`. -/
def writerWrite (s : KvState) (line : List Char) : LogPosition × KvState :=
  let lines := (lookupA s.files s.curr).getD []
  ({ pos := fileSize lines, log_file_name := s.curr },
    { s with
        files := s.files.map (fun p => if p.1 = s.curr then (p.1, p.2 ++ [line]) else p)
        currSize := s.currSize + line.length })

/-- `ReaderPool::reader_list`: the pool's key set.  `HashMap` iteration
    order is unspecified; the model fixes ascending name order. -/
def readerList (s : KvState) : List String :=
  sortNames (s.readers.map (fun p => p.1))

/-- `ReaderPool::remove_readers`: delete each file from disk (panicking if
    the deletion fails) and drop its pooled reader. -/
def removeReaders : List String → KvState → Except Failure KvState
  | [], s => .ok s
  | name :: rest, s =>
    if (lookupA s.files name).isSome then
      removeReaders rest
        { s with
            files := s.files.filter (fun p => p.1 != name)
            readers := eraseA name s.readers }
    else .error .panicked

/-- `ReaderPool::read_from_pos_to_eol`: look up the pooled reader (`unwrap`
    panics if it is absent), seek to the position and read bytes up to and
    excluding the next newline or EOF; the cursor ends after the consumed
    bytes.  (A pooled reader's file is only ever removed together with the
    reader, so the file lookup cannot fail on engine states.) -/
def readFromPosToEol (s : KvState) (lp : LogPosition) :
    Except Failure (List Char × KvState) :=
  match lookupA s.readers lp.log_file_name with
  | none => .error .panicked
  | some _ =>
    match lookupA s.files lp.log_file_name with
    | none => .error .panicked
    | some lines =>
      let content := segContent lines
      let rest := content.drop lp.pos
      let line := rest.takeWhile (fun c => c != '\n')
      let cursor := lp.pos + line.length + (if line.length < rest.length then 1 else 0)
      .ok (line, { s with readers := insertA lp.log_file_name cursor s.readers })

/-- `KvStore::get`.  `writer_pool.sync()` is a no-op here: the model keeps
    every written byte on disk (see `KvState`), and it cannot fail. -/
def kvGet (s : KvState) (key : String) : Except Failure (Option String) × KvState :=
  match lookupA s.keyDir key with
  | none => (.ok none, s)
  | some lp =>
    match readFromPosToEol s lp with
    | .error e => (.error e, s)
    | .ok (line, s') =>
      match decodeL line with
      | none => (.error .corruptLine, s')
      | some (.Set _ v) => (.ok (some v), s')
      | some (.Remove _) => (.ok none, s')

/-- `KvStore::should_remove_log`. -/
def shouldRemoveLog (keyDir : List (String × LogPosition)) (log : CommandLog)
    (fileName : String) (startPos : Nat) : Bool :=
  match log with
  | .Set k _ =>
    match lookupA keyDir k with
    | none => true
    | some lp =>
      if lp.log_file_name != fileName then true
      else if lp.pos != startPos then true
      else false
  | .Remove _ => true

/-- One kept record during compaction (source lines 142-149): re-encode,
    roll to a fresh pooled segment if the record would reach the threshold,
    then append.  The key directory is NOT updated. -/
def appendKept (s : KvState) (c : CommandLog) : KvState :=
  let ser := encodeL c
  let s1 := if COMPACTION_THRESHOLD ≤ s.currSize + ser.length then freshSegment s else s
  (writerWrite s1 ser).2

/-- The per-line scan of one old segment during compaction (source lines
    131-150): decode (`unwrap` panics on failure), decide `should_remove`
    against the key directory, advance the single cursor by `len + 1`
    whether or not the record is dropped, and append kept records via
    `appendKept`. -/
def scanSegmentLines (keyDir : List (String × LogPosition)) (fileName : String) :
    List (List Char) → Nat → KvState → Except Failure (Nat × KvState)
  | [], pos, s => .ok (pos, s)
  | line :: rest, pos, s =>
    match decodeL line with
    | none => .error .panicked
    | some c =>
      let rm := shouldRemoveLog keyDir c fileName pos
      let pos' := pos + line.length + 1
      if rm then scanSegmentLines keyDir fileName rest pos' s
      else scanSegmentLines keyDir fileName rest pos' (appendKept s c)

/-- The outer loop of `compact_log_files`: for each snapshotted segment,
    collect the lines its pooled reader still yields (`reader.lines()`
    streams from the reader's current cursor) and scan them; the single
    `start_pos` cursor is threaded across segments without resetting. -/
def compactSegments (keyDir : List (String × LogPosition)) :
    List String → Nat → KvState → Except Failure (Nat × KvState)
  | [], pos, s => .ok (pos, s)
  | name :: rest, pos, s =>
    match lookupA s.readers name with
    | none => .error .panicked
    | some cursor =>
      match lookupA s.files name with
      | none => .error .panicked
      | some lines =>
        match scanSegmentLines keyDir name
            (splitOnNL ((segContent lines).drop cursor)) pos s with
        | .error e => .error e
        | .ok (pos', s') => compactSegments keyDir rest pos' s'

/-- `KvStore::compact_log_files`: snapshot the pool, roll to a fresh active
    segment (pooling a reader for it), scan every snapshotted segment with a
    single cursor, then evict (delete) all snapshotted segments.  The key
    directory is never rewritten. -/
def compactLogFiles (s : KvState) : Except Failure KvState :=
  let old := readerList s
  let s1 := freshSegment s
  match compactSegments s1.keyDir old 0 s1 with
  | .error e => .error e
  | .ok (_, s2) => removeReaders old s2

/-- `KvStore::write_command_log`: serialize; if appending would reach the
    threshold, compact first; then append. -/
def writeCommandLog (s : KvState) (c : CommandLog) :
    Except Failure (LogPosition × KvState) :=
  let ser := encodeL c
  if COMPACTION_THRESHOLD ≤ s.currSize + ser.length then
    match compactLogFiles s with
    | .error e => .error e
    | .ok s1 => .ok (writerWrite s1 ser)
  else .ok (writerWrite s ser)

/-- `KvStore::set`. -/
def kvSet (s : KvState) (key value : String) : Except Failure Unit × KvState :=
  if key = "" then (.error .keyNotProvided, s)
  else
    match writeCommandLog s (.Set key value) with
    | .error e => (.error e, s)
    | .ok (pos, s1) => (.ok (), { s1 with keyDir := insertA key pos s1.keyDir })

/-- `KvStore::remove`. -/
def kvRemove (s : KvState) (key : String) : Except Failure Unit × KvState :=
  if key = "" then (.error .keyNotProvided, s)
  else if (lookupA s.keyDir key).isSome then
    match writeCommandLog s (.Remove key) with
    | .error e => (.error e, s)
    | .ok (_, s1) => (.ok (), { s1 with keyDir := eraseA key s1.keyDir })
  else (.error .keyNotFound, s)

/-- The per-file replay loop of `KeyDir::init_with_command_logs` (the byte
    offset is reset for each file; recovery opens files directly, not via
    the reader pool): `Set` records point the key at `(offset, file)`,
    `Remove` records delete the entry; decode failures panic (`unwrap`). -/
def replayLines (fileName : String) :
    List (List Char) → Nat → List (String × LogPosition) →
      Except Failure (List (String × LogPosition))
  | [], _, dir => .ok dir
  | line :: rest, pos, dir =>
    match decodeL line with
    | none => .error .panicked
    | some (.Set k _) =>
      replayLines fileName rest (pos + line.length + 1)
        (insertA k { pos := pos, log_file_name := fileName } dir)
    | some (.Remove k) =>
      replayLines fileName rest (pos + line.length + 1) (eraseA k dir)

/-- Fold `replayLines` over the named segments in order. -/
def replayFiles (files : List (String × List (List Char))) :
    List String → List (String × LogPosition) →
      Except Failure (List (String × LogPosition))
  | [], dir => .ok dir
  | name :: rest, dir =>
    match lookupA files name with
    | none => .error .panicked
    | some lines =>
      match replayLines name lines 0 dir with
      | .error e => .error e
      | .ok dir' => replayFiles files rest dir'

/-- `KeyDir::init_with_command_logs`: replay every `.cmdlog` segment in
    ascending filename order. -/
def initWithCommandLogs (files : List (String × List (List Char))) :
    Except Failure (List (String × LogPosition)) :=
  replayFiles files (listLogFiles files) []

/-- `latest_log_file_metadata`: the last listed segment with its size. -/
def latestLogFileMetadata (files : List (String × List (List Char))) :
    Option (String × Nat) :=
  match (listLogFiles files).getLast? with
  | none => none
  | some name =>
    match lookupA files name with
    | none => none
    | some lines => some (name, fileSize lines)

/-- `KvStore::open` on directory contents `files0`, with `ctr` standing for
    the current clock: recovery, then `WriterPool::new` (adopt the newest
    segment if it is smaller than the threshold, else create a fresh one),
    then `ReaderPool::new` (one cursor-0 reader per `.cmdlog` file present,
    including the writer's possibly fresh segment). -/
def openStore (files0 : List (String × List (List Char))) (ctr : Nat) :
    Except Failure KvState :=
  match initWithCommandLogs files0 with
  | .error e => .error e
  | .ok dir =>
    let wp :=
      match latestLogFileMetadata files0 with
      | some (name, size) =>
        if size < COMPACTION_THRESHOLD then (files0, name, size, ctr)
        else (files0 ++ [(mkLogFileName ctr, [])], mkLogFileName ctr, 0, ctr + 1)
      | none => (files0 ++ [(mkLogFileName ctr, [])], mkLogFileName ctr, 0, ctr + 1)
    .ok { files := wp.1
          keyDir := dir
          readers := (listLogFiles wp.1).map (fun n => (n, 0))
          curr := wp.2.1
          currSize := wp.2.2.1
          nameCtr := wp.2.2.2 }

/-- Well-formedness of an engine state, as established by `open` and
    preserved by the operations: every pooled reader's file exists; the
    active segment has a file and a pooled reader; every stored line is a
    serialized record, as is every line a pooled reader would still stream
    from its cursor; and every name on disk or in the pool came from the
    name generator at a counter value below `nameCtr`. -/
def WF (s : KvState) : Prop :=
  (∀ p ∈ s.readers, (lookupA s.files p.1).isSome) ∧
  (lookupA s.files s.curr).isSome ∧
  (lookupA s.readers s.curr).isSome ∧
  (∀ q ∈ s.files, ∀ l ∈ q.2, (decodeL l).isSome) ∧
  (∀ p ∈ s.readers,
    ∀ l ∈ splitOnNL ((segContent ((lookupA s.files p.1).getD [])).drop p.2),
      (decodeL l).isSome) ∧
  (∀ p ∈ s.readers, ∃ k ∈ List.range s.nameCtr, p.1 = mkLogFileName k) ∧
  (∀ q ∈ s.files, ∃ k ∈ List.range s.nameCtr, q.1 = mkLogFileName k) ∧
  (s.readers.map (fun p => p.1)).Nodup ∧
  (s.files.map (fun q => q.1)).Nodup

instance (s : KvState) : Decidable (WF s) := by
  unfold WF
  infer_instance

/-! ## Generic association-list lemmas -/

theorem lookupA_append {α : Type} (l1 l2 : List (String × α)) (nm : String) :
    lookupA (l1 ++ l2) nm =
      match lookupA l1 nm with
      | some v => some v
      | none => lookupA l2 nm := by
  induction l1 with
  | nil => rfl
  | cons p l ih =>
    cases p with
    | mk a b =>
      by_cases h : a = nm
      · simp [lookupA, h]
      · simp [lookupA, h, ih]

theorem lookupA_mapUpdate {α : Type} (l : List (String × α)) (t : String) (f : α → α)
    (nm : String) :
    lookupA (l.map (fun p => if p.1 = t then (p.1, f p.2) else p)) nm =
      if nm = t then (lookupA l nm).map f else lookupA l nm := by
  induction l with
  | nil => simp [lookupA]
  | cons p l ih =>
    cases p with
    | mk a b =>
      simp only [List.map_cons]
      by_cases hat : a = t
      · subst hat
        rw [show (if (a, b).1 = a then ((a, b).1, f (a, b).2) else (a, b)) = (a, f b) by simp]
        by_cases han : a = nm
        · subst han
          simp [lookupA]
        · simp only [lookupA, if_neg han]
          rw [ih]
      · rw [show (if (a, b).1 = t then ((a, b).1, f (a, b).2) else (a, b)) = (a, b) by
          simp [hat]]
        by_cases han : a = nm
        · subst han
          rw [if_neg (fun h => hat h)]
          simp [lookupA]
        · simp only [lookupA, if_neg han]
          rw [ih]

theorem lookup_isSome_of_mem_fst {α : Type} {l : List (String × α)} {nm : String}
    (h : nm ∈ l.map (fun p => p.1)) : (lookupA l nm).isSome := by
  induction l with
  | nil => simp at h
  | cons p l ih =>
    cases p with
    | mk a b =>
      rcases List.mem_cons.1 h with h1 | h1
      · simp at h1
        simp [lookupA, h1]
      · by_cases ha : a = nm
        · simp [lookupA, ha]
        · simpa [lookupA, ha] using ih h1

theorem lookupA_filter_ne {α : Type} (l : List (String × α)) (t nm : String)
    (h : ¬ nm = t) :
    lookupA (l.filter (fun p => p.1 != t)) nm = lookupA l nm := by
  induction l with
  | nil => rfl
  | cons p l ih =>
    cases p with
    | mk a b =>
      by_cases ha : a = t
      · subst ha
        simp only [List.filter_cons, bne_self_eq_false]
        rw [show lookupA ((a, b) :: l) nm = lookupA l nm by
          simp only [lookupA]
          rw [if_neg (fun hh => h hh.symm)]]
        exact ih
      · simp only [List.filter_cons]
        rw [if_pos (by simpa using ha)]
        by_cases han : a = nm
        · simp [lookupA, han]
        · simp [lookupA, han, ih]

/-! ## Compaction refinement: the claim-side scan and the fold form -/

/-- Sum of `len(line) + 1` over a list of record lines. -/
def sumBytes (lines : List (List Char)) : Nat :=
  (lines.map (fun l => l.length + 1)).sum

/-- The spec's drop rule, stated from the claim's words: a scanned record is
    dropped iff it is a `Remove`, or a `Set` whose key is absent from the
    key directory, or a `Set` whose directory entry differs from
    `(scanned segment, scan_offset)`. -/
def specDrop (keyDir : List (String × LogPosition)) (fileName : String) (off : Nat) :
    CommandLog → Bool
  | .Remove _ => true
  | .Set k _ =>
    match lookupA keyDir k with
    | none => true
    | some lp => if lp.log_file_name = fileName ∧ lp.pos = off then false else true

/-- The spec's scan of one segment's lines: the cursor advances by
    `len + 1` for every record, kept or dropped; kept records are listed in
    scan order.  (The `none` branch is unreachable under the decodability
    hypotheses of the refinement theorems.) -/
def specKept (keyDir : List (String × LogPosition)) (fileName : String) :
    List (List Char) → Nat → List CommandLog
  | [], _ => []
  | line :: rest, off =>
    match decodeL line with
    | none => []
    | some c =>
      if specDrop keyDir fileName off c then
        specKept keyDir fileName rest (off + line.length + 1)
      else c :: specKept keyDir fileName rest (off + line.length + 1)

/-- The spec's scan over a sequence of segments with the single cursor
    threaded across segment boundaries without resetting. -/
def specKeptAll (keyDir : List (String × LogPosition)) :
    List (String × List (List Char)) → Nat → List CommandLog
  | [], _ => []
  | (nm, lines) :: rest, off =>
    specKept keyDir nm lines off ++ specKeptAll keyDir rest (off + sumBytes lines)

theorem shouldRemoveLog_eq_specDrop (keyDir : List (String × LogPosition))
    (c : CommandLog) (fileName : String) (off : Nat) :
    shouldRemoveLog keyDir c fileName off = specDrop keyDir fileName off c := by
  cases c with
  | Remove k => rfl
  | Set k v =>
    simp only [shouldRemoveLog, specDrop]
    match h : lookupA keyDir k with
    | none => rfl
    | some lp =>
      by_cases h1 : lp.log_file_name = fileName
      · by_cases h2 : lp.pos = off
        · simp [h1, h2]
        · simp [h1, h2]
      · simp [h1]

/-- The source's per-segment scan loop equals the spec scan: the final
    cursor has advanced by `len + 1` for every scanned record, and the state
    is the fold of `appendKept` over exactly the spec's kept records. -/
theorem scanSegmentLines_spec (keyDir : List (String × LogPosition)) (fileName : String) :
    ∀ (lines : List (List Char)) (pos : Nat) (s : KvState),
      (∀ l ∈ lines, (decodeL l).isSome) →
      scanSegmentLines keyDir fileName lines pos s =
        .ok (pos + sumBytes lines,
          List.foldl appendKept s (specKept keyDir fileName lines pos)) := by
  intro lines
  induction lines with
  | nil => intro pos s _; simp [scanSegmentLines, sumBytes, specKept]
  | cons line rest ih =>
    intro pos s hdec
    have hline : (decodeL line).isSome := hdec line (List.mem_cons_self _ _)
    have hrest : ∀ l ∈ rest, (decodeL l).isSome :=
      fun l hl => hdec l (List.mem_cons_of_mem _ hl)
    match hd : decodeL line with
    | none => rw [hd] at hline; simp at hline
    | some c =>
      rw [show scanSegmentLines keyDir fileName (line :: rest) pos s =
            (if shouldRemoveLog keyDir c fileName pos then
              scanSegmentLines keyDir fileName rest (pos + line.length + 1) s
            else
              scanSegmentLines keyDir fileName rest (pos + line.length + 1)
                (appendKept s c)) by
        simp [scanSegmentLines, hd]]
      rw [show specKept keyDir fileName (line :: rest) pos =
            (if specDrop keyDir fileName pos c then
              specKept keyDir fileName rest (pos + line.length + 1)
            else c :: specKept keyDir fileName rest (pos + line.length + 1)) by
        simp [specKept, hd]]
      rw [shouldRemoveLog_eq_specDrop]
      have hsum : pos + sumBytes (line :: rest) =
          (pos + line.length + 1) + sumBytes rest := by
        simp [sumBytes]
        omega
      by_cases hdrop : specDrop keyDir fileName pos c
      · simp only [if_pos hdrop]
        rw [ih _ s hrest, hsum]
      · simp only [if_neg hdrop]
        rw [ih _ (appendKept s c) hrest, hsum]
        rfl

/-! ## Freshness of generated names and compaction-loop invariants -/

/-- `nm` was produced by the name generator at some counter below `b`. -/
def NameIsGen (b : Nat) (nm : String) : Prop := ∃ k, k < b ∧ nm = mkLogFileName k

theorem NameIsGen.ne_gen {b j : Nat} {nm : String} (h : NameIsGen b nm) (hj : b ≤ j) :
    ¬ nm = mkLogFileName j := by
  rcases h with ⟨k, hk, rfl⟩
  intro he
  have := mkLogFileName_inj he
  omega

theorem NameIsGen.mono {b b' : Nat} {nm : String} (h : NameIsGen b nm) (hb : b ≤ b') :
    NameIsGen b' nm := by
  rcases h with ⟨k, hk, rfl⟩
  exact ⟨k, by omega, rfl⟩

/-- Loop invariant during one compaction run that started at counter `b`:
    the active segment is a generated name at some counter in `[b, nameCtr)`. -/
def CompactInv (b : Nat) (s : KvState) : Prop :=
  b ≤ s.nameCtr ∧ ∃ j, b ≤ j ∧ j < s.nameCtr ∧ s.curr = mkLogFileName j

theorem freshSegment_eq (s : KvState) :
    freshSegment s =
      { files := s.files ++ [(mkLogFileName s.nameCtr, [])]
        keyDir := s.keyDir
        readers := insertA (mkLogFileName s.nameCtr) 0 s.readers
        curr := mkLogFileName s.nameCtr
        currSize := 0
        nameCtr := s.nameCtr + 1 } := rfl

theorem writerWrite_snd (s : KvState) (line : List Char) :
    (writerWrite s line).2 =
      { files := s.files.map (fun p => if p.1 = s.curr then (p.1, p.2 ++ [line]) else p)
        keyDir := s.keyDir
        readers := s.readers
        curr := s.curr
        currSize := s.currSize + line.length
        nameCtr := s.nameCtr } := rfl

theorem appendKept_eq (s : KvState) (c : CommandLog) :
    appendKept s c =
      (writerWrite (if COMPACTION_THRESHOLD ≤ s.currSize + (encodeL c).length
        then freshSegment s else s) (encodeL c)).2 := rfl

theorem compactInv_freshSegment {b : Nat} {s : KvState} (h : b ≤ s.nameCtr) :
    CompactInv b (freshSegment s) := by
  refine ⟨?_, s.nameCtr, h, ?_, ?_⟩
  · show b ≤ s.nameCtr + 1
    omega
  · show s.nameCtr < s.nameCtr + 1
    omega
  · rfl

theorem compactInv_appendKept {b : Nat} {s : KvState} (h : CompactInv b s)
    (c : CommandLog) : CompactInv b (appendKept s c) := by
  rw [appendKept_eq]
  by_cases hroll : COMPACTION_THRESHOLD ≤ s.currSize + (encodeL c).length
  · rw [if_pos hroll, writerWrite_snd]
    have := compactInv_freshSegment (b := b) (s := s) h.1
    exact ⟨this.1, this.2⟩
  · rw [if_neg hroll, writerWrite_snd]
    exact ⟨h.1, h.2⟩

theorem appendKept_keyDir (s : KvState) (c : CommandLog) :
    (appendKept s c).keyDir = s.keyDir := by
  rw [appendKept_eq]
  by_cases hroll : COMPACTION_THRESHOLD ≤ s.currSize + (encodeL c).length
  · rw [if_pos hroll, writerWrite_snd, freshSegment_eq]
  · rw [if_neg hroll, writerWrite_snd]

theorem lookupA_appendUpdate (l : List (String × List (List Char))) (t : String)
    (line : List Char) (nm : String) :
    lookupA (l.map (fun p => if p.1 = t then (p.1, p.2 ++ [line]) else p)) nm =
      if nm = t then (lookupA l nm).map (fun v => v ++ [line]) else lookupA l nm :=
  lookupA_mapUpdate l t (fun v => v ++ [line]) nm

theorem appendKept_files_stable {b : Nat} {s : KvState} (hinv : CompactInv b s)
    {nm : String} (hnm : NameIsGen b nm) (c : CommandLog) :
    lookupA (appendKept s c).files nm = lookupA s.files nm := by
  rw [appendKept_eq]
  by_cases hroll : COMPACTION_THRESHOLD ≤ s.currSize + (encodeL c).length
  · rw [if_pos hroll, writerWrite_snd, freshSegment_eq]
    simp only
    rw [lookupA_appendUpdate]
    have hcn : ¬ nm = mkLogFileName s.nameCtr := hnm.ne_gen hinv.1
    rw [if_neg hcn, lookupA_append]
    cases hx : lookupA s.files nm with
    | some v => rfl
    | none =>
      show lookupA [(mkLogFileName s.nameCtr, [])] nm = none
      simp only [lookupA]
      rw [if_neg (fun h => hcn h.symm)]
  · rw [if_neg hroll, writerWrite_snd]
    simp only
    rw [lookupA_appendUpdate]
    rcases hinv.2 with ⟨j, hbj, _, hcurr⟩
    rw [if_neg (fun h : nm = s.curr => (hnm.ne_gen hbj) (by rw [h, hcurr]))]

theorem appendKept_readers_stable {b : Nat} {s : KvState} (hinv : CompactInv b s)
    {nm : String} (hnm : NameIsGen b nm) (c : CommandLog) :
    lookupA (appendKept s c).readers nm = lookupA s.readers nm := by
  rw [appendKept_eq]
  by_cases hroll : COMPACTION_THRESHOLD ≤ s.currSize + (encodeL c).length
  · rw [if_pos hroll, writerWrite_snd, freshSegment_eq]
    simp only
    exact lookupA_insertA_ne (fun h => (hnm.ne_gen hinv.1) h.symm) _ _
  · rw [if_neg hroll, writerWrite_snd]

theorem foldl_appendKept_inv {b : Nat} :
    ∀ (cs : List CommandLog) (s : KvState), CompactInv b s →
      CompactInv b (List.foldl appendKept s cs) := by
  intro cs
  induction cs with
  | nil => intro s h; exact h
  | cons c cs ih => intro s h; exact ih _ (compactInv_appendKept h c)

theorem foldl_appendKept_keyDir :
    ∀ (cs : List CommandLog) (s : KvState),
      (List.foldl appendKept s cs).keyDir = s.keyDir := by
  intro cs
  induction cs with
  | nil => intro s; rfl
  | cons c cs ih => intro s; rw [List.foldl_cons, ih, appendKept_keyDir]

theorem foldl_appendKept_files_stable {b : Nat} {nm : String} (hnm : NameIsGen b nm) :
    ∀ (cs : List CommandLog) (s : KvState), CompactInv b s →
      lookupA (List.foldl appendKept s cs).files nm = lookupA s.files nm := by
  intro cs
  induction cs with
  | nil => intro s _; rfl
  | cons c cs ih =>
    intro s h
    rw [List.foldl_cons, ih _ (compactInv_appendKept h c), appendKept_files_stable h hnm]

theorem foldl_appendKept_readers_stable {b : Nat} {nm : String} (hnm : NameIsGen b nm) :
    ∀ (cs : List CommandLog) (s : KvState), CompactInv b s →
      lookupA (List.foldl appendKept s cs).readers nm = lookupA s.readers nm := by
  intro cs
  induction cs with
  | nil => intro s _; rfl
  | cons c cs ih =>
    intro s h
    rw [List.foldl_cons, ih _ (compactInv_appendKept h c), appendKept_readers_stable h hnm]

theorem mem_of_lookupA {α : Type} :
    ∀ {l : List (String × α)} {nm : String} {v : α},
      lookupA l nm = some v → (nm, v) ∈ l := by
  intro l
  induction l with
  | nil => intro nm v h; simp [lookupA] at h
  | cons p l ih =>
    intro nm v h
    cases p with
    | mk a b =>
      by_cases ha : a = nm
      · subst ha
        have hb : some b = some v := by simpa [lookupA] using h
        cases hb
        exact List.mem_cons_self _ _
      · simp only [lookupA, if_neg ha] at h
        exact List.mem_cons_of_mem _ (ih h)

/-- The source's multi-segment compaction loop equals the spec scan: the
    single cursor accumulates `len + 1` per scanned record across all
    segments without resetting, and the state is the fold of `appendKept`
    over the spec's kept records. -/
theorem compactSegments_spec (keyDir : List (String × LogPosition)) (b : Nat) :
    ∀ (segs : List (String × List (List Char))) (pos : Nat) (s : KvState),
      CompactInv b s →
      (∀ q ∈ segs, NameIsGen b q.1) →
      (∀ q ∈ segs, ∃ cur lines, lookupA s.readers q.1 = some cur ∧
        lookupA s.files q.1 = some lines ∧
        q.2 = splitOnNL ((segContent lines).drop cur)) →
      (∀ q ∈ segs, ∀ l ∈ q.2, (decodeL l).isSome) →
      compactSegments keyDir (segs.map (fun q => q.1)) pos s =
        .ok (pos + (segs.map (fun q => sumBytes q.2)).sum,
          List.foldl appendKept s (specKeptAll keyDir segs pos)) := by
  intro segs
  induction segs with
  | nil =>
    intro pos s _ _ _ _
    simp [compactSegments, specKeptAll]
  | cons q rest ih =>
    intro pos s hinv hgen hlk hdec
    cases q with
    | mk nm scanned =>
      obtain ⟨cur, lines, hr, hf, hscan⟩ := hlk (nm, scanned) (List.mem_cons_self _ _)
      simp only at hr hf hscan
      have hdec1 : ∀ l ∈ scanned, (decodeL l).isSome :=
        fun l hl => hdec (nm, scanned) (List.mem_cons_self _ _) l hl
      have hmap : ((nm, scanned) :: rest).map (fun q => q.1) =
          nm :: rest.map (fun q => q.1) := by simp
      rw [hmap]
      rw [show compactSegments keyDir (nm :: rest.map (fun q => q.1)) pos s =
            (match scanSegmentLines keyDir nm
                (splitOnNL ((segContent lines).drop cur)) pos s with
              | .error e => .error e
              | .ok (pos', s') =>
                compactSegments keyDir (rest.map (fun q => q.1)) pos' s') by
        simp [compactSegments, hr, hf]]
      rw [← hscan, scanSegmentLines_spec keyDir nm scanned pos s hdec1]
      have hinv' : CompactInv b (List.foldl appendKept s (specKept keyDir nm scanned pos)) :=
        foldl_appendKept_inv _ _ hinv
      show compactSegments keyDir (rest.map (fun q => q.1)) (pos + sumBytes scanned)
          (List.foldl appendKept s (specKept keyDir nm scanned pos)) =
        .ok (pos + (((nm, scanned) :: rest).map (fun q => sumBytes q.2)).sum,
          List.foldl appendKept s (specKeptAll keyDir ((nm, scanned) :: rest) pos))
      rw [ih (pos + sumBytes scanned) _ hinv'
        (fun q hq => hgen q (List.mem_cons_of_mem _ hq))
        (fun q hq => by
          obtain ⟨cur', lines', hr', hf', hscan'⟩ := hlk q (List.mem_cons_of_mem _ hq)
          refine ⟨cur', lines', ?_, ?_, hscan'⟩
          · rw [foldl_appendKept_readers_stable (hgen q (List.mem_cons_of_mem _ hq)) _ _ hinv]
            exact hr'
          · rw [foldl_appendKept_files_stable (hgen q (List.mem_cons_of_mem _ hq)) _ _ hinv]
            exact hf')
        (fun q hq => hdec q (List.mem_cons_of_mem _ hq))]
      rw [show specKeptAll keyDir ((nm, scanned) :: rest) pos =
            specKept keyDir nm scanned pos ++
              specKeptAll keyDir rest (pos + sumBytes scanned) from rfl]
      rw [List.foldl_append]
      have : pos + sumBytes scanned +
            (rest.map (fun q => sumBytes q.2)).sum =
          pos + (((nm, scanned) :: rest).map (fun q => sumBytes q.2)).sum := by
        simp
        omega
      rw [this]

/-- `remove_readers` succeeds on distinct names whose files all exist, and
    touches neither the writer, the counter, nor the key directory. -/
theorem removeReaders_ok :
    ∀ (names : List String) (s : KvState),
      (∀ nm ∈ names, (lookupA s.files nm).isSome) →
      names.Nodup →
      ∃ s', removeReaders names s = .ok s' ∧ s'.curr = s.curr ∧
        s'.currSize = s.currSize ∧ s'.nameCtr = s.nameCtr ∧ s'.keyDir = s.keyDir := by
  intro names
  induction names with
  | nil => intro s _ _; exact ⟨s, rfl, rfl, rfl, rfl, rfl⟩
  | cons nm rest ih =>
    intro s hlk hnd
    have h1 : (lookupA s.files nm).isSome = true := hlk nm (List.mem_cons_self _ _)
    have hstep : removeReaders (nm :: rest) s =
        removeReaders rest
          { s with
              files := s.files.filter (fun p => p.1 != nm)
              readers := eraseA nm s.readers } := by
      simp [removeReaders, h1]
    rw [hstep]
    have hnm_rest : ∀ nm' ∈ rest, ¬ nm' = nm := by
      intro nm' hm he
      exact (List.nodup_cons.1 hnd).1 (he ▸ hm)
    obtain ⟨s', hres, hc, hcs, hn, hk⟩ := ih
      { s with
          files := s.files.filter (fun p => p.1 != nm)
          readers := eraseA nm s.readers }
      (fun nm' hm => by
        show (lookupA (s.files.filter (fun p => p.1 != nm)) nm').isSome
        rw [lookupA_filter_ne _ _ _ (hnm_rest nm' hm)]
        exact hlk nm' (List.mem_cons_of_mem _ hm))
      (List.nodup_cons.1 hnd).2
    exact ⟨s', hres, hc, hcs, hn, hk⟩

/-- The scanned tail of every snapshotted segment at compaction entry:
    segment name paired with the lines its pooled reader still yields. -/
def oldSegs (s : KvState) : List (String × List (List Char)) :=
  (readerList s).map (fun nm =>
    (nm, splitOnNL ((segContent ((lookupA s.files nm).getD [])).drop
      ((lookupA s.readers nm).getD 0))))

theorem oldSegs_map_fst (s : KvState) :
    (oldSegs s).map (fun q => q.1) = readerList s := by
  unfold oldSegs
  rw [List.map_map]
  have : ((fun (q : String × List (List Char)) => q.1) ∘ fun nm =>
      (nm, splitOnNL ((segContent ((lookupA s.files nm).getD [])).drop
        ((lookupA s.readers nm).getD 0)))) = id := by
    funext nm
    rfl
  rw [this, List.map_id]

/-- Master description of one compaction run from a well-formed state:
    the scan loop succeeds, equals the spec fold, and the run ends by
    evicting exactly the snapshot; the result exists, keeps the key
    directory untouched, and its active segment is a name generated during
    the run (at counter at least `s.nameCtr`). -/
theorem WF_readerList_gen {s : KvState} (hwf : WF s) :
    ∀ nm ∈ readerList s, NameIsGen s.nameCtr nm := by
  intro nm hm
  rcases List.mem_map.1 (mem_sortNames.1 hm) with ⟨p, hp, rfl⟩
  rcases hwf.2.2.2.2.2.1 p hp with ⟨k, hk, hke⟩
  exact ⟨k, List.mem_range.1 hk, hke⟩

theorem compactLogFiles_spec (s : KvState) (hwf : WF s) :
    compactSegments s.keyDir (readerList s) 0 (freshSegment s) =
      .ok (((oldSegs s).map (fun q => sumBytes q.2)).sum,
        List.foldl appendKept (freshSegment s) (specKeptAll s.keyDir (oldSegs s) 0)) ∧
    compactLogFiles s =
      removeReaders (readerList s)
        (List.foldl appendKept (freshSegment s) (specKeptAll s.keyDir (oldSegs s) 0)) ∧
    ∃ s', compactLogFiles s = .ok s' ∧ s'.keyDir = s.keyDir ∧
      s'.currSize = (List.foldl appendKept (freshSegment s)
        (specKeptAll s.keyDir (oldSegs s) 0)).currSize ∧
      ∃ j, s.nameCtr ≤ j ∧ s'.curr = mkLogFileName j := by
  obtain ⟨hrf, hcf, hcr, hdecf, hdecscan, hgenr, hgenf, hndr, hndf⟩ := hwf
  have hgen_old : ∀ nm ∈ readerList s, NameIsGen s.nameCtr nm := by
    intro nm hm
    rcases List.mem_map.1 (mem_sortNames.1 hm) with ⟨p, hp, rfl⟩
    rcases hgenr p hp with ⟨k, hk, hke⟩
    exact ⟨k, List.mem_range.1 hk, hke⟩
  have hinv : CompactInv s.nameCtr (freshSegment s) :=
    compactInv_freshSegment (le_refl _)
  have hold_reader : ∀ nm ∈ readerList s, (lookupA s.readers nm).isSome := by
    intro nm hm
    exact lookup_isSome_of_mem_fst (mem_sortNames.1 hm)
  have hsegs : ∀ q ∈ oldSegs s, ∃ cur lines,
      lookupA (freshSegment s).readers q.1 = some cur ∧
      lookupA (freshSegment s).files q.1 = some lines ∧
      q.2 = splitOnNL ((segContent lines).drop cur) := by
    intro q hq
    rcases List.mem_map.1 hq with ⟨nm, hnm, rfl⟩
    rcases Option.isSome_iff_exists.1 (hold_reader nm hnm) with ⟨cur, hcur⟩
    have hmem : (nm, cur) ∈ s.readers := mem_of_lookupA hcur
    rcases Option.isSome_iff_exists.1 (hrf (nm, cur) hmem) with ⟨lines, hlines⟩
    refine ⟨cur, lines, ?_, ?_, ?_⟩
    · rw [freshSegment_eq]
      simp only
      rw [lookupA_insertA_ne (fun h => ((hgen_old nm hnm).ne_gen (le_refl _)) h.symm)]
      exact hcur
    · rw [freshSegment_eq]
      simp only
      rw [lookupA_append, hlines]
    · simp only [hcur, hlines, Option.getD_some]
  have hdec_scan : ∀ q ∈ oldSegs s, ∀ l ∈ q.2, (decodeL l).isSome := by
    intro q hq l hl
    rcases List.mem_map.1 hq with ⟨nm, hnm, rfl⟩
    rcases Option.isSome_iff_exists.1 (hold_reader nm hnm) with ⟨cur, hcur⟩
    have hmem : (nm, cur) ∈ s.readers := mem_of_lookupA hcur
    have := hdecscan (nm, cur) hmem
    simp only [hcur, Option.getD_some] at hl
    exact this l hl
  have hgen_segs : ∀ q ∈ oldSegs s, NameIsGen s.nameCtr q.1 := by
    intro q hq
    rcases List.mem_map.1 hq with ⟨nm, hnm, rfl⟩
    exact hgen_old nm hnm
  have hspec := compactSegments_spec s.keyDir s.nameCtr (oldSegs s) 0 (freshSegment s)
    hinv hgen_segs hsegs hdec_scan
  rw [oldSegs_map_fst, Nat.zero_add] at hspec
  have hunfold : compactLogFiles s =
      match compactSegments s.keyDir (readerList s) 0 (freshSegment s) with
      | .error e => .error e
      | .ok (_, s2) => removeReaders (readerList s) s2 := rfl
  have hfold_inv : CompactInv s.nameCtr
      (List.foldl appendKept (freshSegment s) (specKeptAll s.keyDir (oldSegs s) 0)) :=
    foldl_appendKept_inv _ _ hinv
  have hmain : compactLogFiles s =
      removeReaders (readerList s)
        (List.foldl appendKept (freshSegment s) (specKeptAll s.keyDir (oldSegs s) 0)) := by
    rw [hunfold, hspec]
  refine ⟨hspec, hmain, ?_⟩
  have hfiles_fold : ∀ nm ∈ readerList s,
      (lookupA (List.foldl appendKept (freshSegment s)
        (specKeptAll s.keyDir (oldSegs s) 0)).files nm).isSome := by
    intro nm hnm
    rw [foldl_appendKept_files_stable (hgen_old nm hnm) _ _ hinv]
    rcases Option.isSome_iff_exists.1 (hold_reader nm hnm) with ⟨cur, hcur⟩
    rcases Option.isSome_iff_exists.1 (hrf (nm, cur) (mem_of_lookupA hcur)) with
      ⟨lines, hlines⟩
    rw [freshSegment_eq]
    simp only
    rw [lookupA_append, hlines]
    rfl
  obtain ⟨s', hres, hc, hcs, hn, hk⟩ := removeReaders_ok (readerList s) _ hfiles_fold
    ((perm_sortNames _).nodup_iff.2 hndr)
  refine ⟨s', by rw [hmain, hres], ?_, hcs, ?_⟩
  · rw [hk, foldl_appendKept_keyDir]
    rfl
  · rcases hfold_inv.2 with ⟨j, hbj, _, hj⟩
    exact ⟨j, hbj, hc.trans hj⟩

/-! ## Size accounting of the pre-write gate -/

theorem appendKept_currSize (s : KvState) (c : CommandLog) :
    (appendKept s c).currSize =
      (if COMPACTION_THRESHOLD ≤ s.currSize + (encodeL c).length then 0 else s.currSize) +
        (encodeL c).length := by
  rw [appendKept_eq]
  by_cases h : COMPACTION_THRESHOLD ≤ s.currSize + (encodeL c).length
  · rw [if_pos h, if_pos h, writerWrite_snd]
    rfl
  · rw [if_neg h, if_neg h, writerWrite_snd]

/-- During compaction the writer's tracked size is strictly below the
    threshold at the moment each kept record is appended (a fresh segment is
    allocated first whenever the record would cross it). -/
theorem appendKept_moment_lt (s : KvState) (c : CommandLog) :
    (if COMPACTION_THRESHOLD ≤ s.currSize + (encodeL c).length then freshSegment s
      else s).currSize < COMPACTION_THRESHOLD := by
  by_cases h : COMPACTION_THRESHOLD ≤ s.currSize + (encodeL c).length
  · rw [if_pos h]
    show (0 : Nat) < COMPACTION_THRESHOLD
    decide
  · rw [if_neg h]
    omega

theorem foldl_appendKept_size_lt :
    ∀ (cs : List CommandLog) (s : KvState),
      (∀ c ∈ cs, (encodeL c).length < COMPACTION_THRESHOLD) →
      s.currSize < COMPACTION_THRESHOLD →
      (List.foldl appendKept s cs).currSize < COMPACTION_THRESHOLD := by
  intro cs
  induction cs with
  | nil => intro s _ h; exact h
  | cons c cs ih =>
    intro s hsmall hlt
    rw [List.foldl_cons]
    refine ih _ (fun c' hc' => hsmall c' (List.mem_cons_of_mem _ hc')) ?_
    rw [appendKept_currSize]
    have hc := hsmall c (List.mem_cons_self _ _)
    by_cases h : COMPACTION_THRESHOLD ≤ s.currSize + (encodeL c).length
    · rw [if_pos h]
      omega
    · rw [if_neg h]
      omega

theorem writeCommandLog_eq (s : KvState) (c : CommandLog) :
    writeCommandLog s c =
      if COMPACTION_THRESHOLD ≤ s.currSize + (encodeL c).length then
        match compactLogFiles s with
        | .error e => .error e
        | .ok s1 => .ok (writerWrite s1 (encodeL c))
      else .ok (writerWrite s (encodeL c)) := rfl

/-! ## Recovery characterization -/

/-- The records of one segment annotated with their byte offsets. -/
def annotLines (fileName : String) : List (List Char) → Nat → List (String × Nat × List Char)
  | [], _ => []
  | l :: ls, pos => (fileName, pos, l) :: annotLines fileName ls (pos + l.length + 1)

/-- The replay stream: all records of the named segments, in order, with
    per-segment offsets. -/
def annotFiles (files : List (String × List (List Char))) :
    List String → List (String × Nat × List Char)
  | [] => []
  | nm :: rest => annotLines nm ((lookupA files nm).getD []) 0 ++ annotFiles files rest

/-- The effect of one replayed record on the key directory. -/
def replayStep (dir : List (String × LogPosition)) (r : String × Nat × List Char) :
    List (String × LogPosition) :=
  match decodeL r.2.2 with
  | some (.Set k _) => insertA k { pos := r.2.1, log_file_name := r.1 } dir
  | some (.Remove k) => eraseA k dir
  | none => dir

/-- Does a replayed record mention key `k`? -/
def touchesKey (k : String) (r : String × Nat × List Char) : Bool :=
  match decodeL r.2.2 with
  | some (.Set k' _) => k' = k
  | some (.Remove k') => k' = k
  | none => false

/-- The claim's characterization: the position of the last record mentioning
    `k`, provided that record is a `Set`; nothing otherwise. -/
def lastWins (recs : List (String × Nat × List Char)) (k : String) : Option LogPosition :=
  match (recs.filter (touchesKey k)).getLast? with
  | none => none
  | some r =>
    match decodeL r.2.2 with
    | some (.Set _ _) => some { pos := r.2.1, log_file_name := r.1 }
    | _ => none

theorem replayLines_eq_foldl (fileName : String) :
    ∀ (lines : List (List Char)) (pos : Nat) (dir : List (String × LogPosition)),
      (∀ l ∈ lines, (decodeL l).isSome) →
      replayLines fileName lines pos dir =
        .ok (List.foldl replayStep dir (annotLines fileName lines pos)) := by
  intro lines
  induction lines with
  | nil => intro pos dir _; rfl
  | cons l ls ih =>
    intro pos dir hdec
    have h1 : (decodeL l).isSome := hdec l (List.mem_cons_self _ _)
    match hd : decodeL l with
    | none => rw [hd] at h1; simp at h1
    | some c =>
      cases c with
      | Set k v =>
        rw [show replayLines fileName (l :: ls) pos dir =
              replayLines fileName ls (pos + l.length + 1)
                (insertA k { pos := pos, log_file_name := fileName } dir) by
          simp [replayLines, hd]]
        rw [ih _ _ (fun x hx => hdec x (List.mem_cons_of_mem _ hx))]
        rw [show annotLines fileName (l :: ls) pos =
              (fileName, pos, l) :: annotLines fileName ls (pos + l.length + 1) from rfl]
        rw [List.foldl_cons]
        rw [show replayStep dir (fileName, pos, l) =
              insertA k { pos := pos, log_file_name := fileName } dir by
          simp [replayStep, hd]]
      | Remove k =>
        rw [show replayLines fileName (l :: ls) pos dir =
              replayLines fileName ls (pos + l.length + 1) (eraseA k dir) by
          simp [replayLines, hd]]
        rw [ih _ _ (fun x hx => hdec x (List.mem_cons_of_mem _ hx))]
        rw [show annotLines fileName (l :: ls) pos =
              (fileName, pos, l) :: annotLines fileName ls (pos + l.length + 1) from rfl]
        rw [List.foldl_cons]
        rw [show replayStep dir (fileName, pos, l) = eraseA k dir by
          simp [replayStep, hd]]

theorem replayFiles_eq_foldl (files : List (String × List (List Char))) :
    ∀ (names : List String) (dir : List (String × LogPosition)),
      (∀ nm ∈ names, (lookupA files nm).isSome) →
      (∀ nm ∈ names, ∀ l ∈ (lookupA files nm).getD [], (decodeL l).isSome) →
      replayFiles files names dir =
        .ok (List.foldl replayStep dir (annotFiles files names)) := by
  intro names
  induction names with
  | nil => intro dir _ _; rfl
  | cons nm rest ih =>
    intro dir hlk hdec
    rcases Option.isSome_iff_exists.1 (hlk nm (List.mem_cons_self _ _)) with ⟨lines, hlines⟩
    have hdec1 : ∀ l ∈ lines, (decodeL l).isSome := by
      intro l hl
      have := hdec nm (List.mem_cons_self _ _)
      rw [hlines] at this
      exact this l hl
    rw [show replayFiles files (nm :: rest) dir =
          match replayLines nm lines 0 dir with
          | .error e => .error e
          | .ok dir' => replayFiles files rest dir' by
      simp [replayFiles, hlines]]
    rw [replayLines_eq_foldl nm lines 0 dir hdec1]
    show replayFiles files rest (List.foldl replayStep dir (annotLines nm lines 0)) =
      .ok (List.foldl replayStep dir (annotFiles files (nm :: rest)))
    rw [ih _ (fun x hx => hlk x (List.mem_cons_of_mem _ hx))
      (fun x hx => hdec x (List.mem_cons_of_mem _ hx))]
    rw [show annotFiles files (nm :: rest) =
          annotLines nm ((lookupA files nm).getD []) 0 ++ annotFiles files rest from rfl]
    rw [hlines, Option.getD_some, List.foldl_append]

theorem lookup_foldl_replayStep (k : String) :
    ∀ (recs : List (String × Nat × List Char)) (dir : List (String × LogPosition)),
      lookupA (List.foldl replayStep dir recs) k =
        match (recs.filter (touchesKey k)).getLast? with
        | none => lookupA dir k
        | some r =>
          match decodeL r.2.2 with
          | some (.Set _ _) => some { pos := r.2.1, log_file_name := r.1 }
          | _ => none := by
  intro recs
  induction recs with
  | nil => intro dir; rfl
  | cons r rest ih =>
    intro dir
    rw [List.foldl_cons, ih]
    by_cases htouch : touchesKey k r
    · rw [show (r :: rest).filter (touchesKey k) = r :: rest.filter (touchesKey k) by
        simp [List.filter_cons, htouch]]
      cases hrest : rest.filter (touchesKey k) with
      | nil =>
        show lookupA (replayStep dir r) k =
          match decodeL r.2.2 with
          | some (.Set _ _) => some { pos := r.2.1, log_file_name := r.1 }
          | _ => none
        unfold touchesKey at htouch
        match hd : decodeL r.2.2 with
        | none => rw [hd] at htouch; simp at htouch
        | some (.Set k' v) =>
          rw [hd] at htouch
          simp at htouch
          rw [show replayStep dir r =
                insertA k' { pos := r.2.1, log_file_name := r.1 } dir by
            simp [replayStep, hd]]
          rw [htouch, lookupA_insertA_self]
        | some (.Remove k') =>
          rw [hd] at htouch
          simp at htouch
          rw [show replayStep dir r = eraseA k' dir by simp [replayStep, hd]]
          rw [htouch, lookupA_eraseA_self]
      | cons q qs => rfl
    · rw [show (r :: rest).filter (touchesKey k) = rest.filter (touchesKey k) by
        simp [List.filter_cons, htouch]]
      have hstep : lookupA (replayStep dir r) k = lookupA dir k := by
        unfold touchesKey at htouch
        match hd : decodeL r.2.2 with
        | none => simp [replayStep, hd]
        | some (.Set k' v) =>
          rw [hd] at htouch
          simp at htouch
          rw [show replayStep dir r =
                insertA k' { pos := r.2.1, log_file_name := r.1 } dir by
            simp [replayStep, hd]]
          exact lookupA_insertA_ne htouch _ _
        | some (.Remove k') =>
          rw [hd] at htouch
          simp at htouch
          rw [show replayStep dir r = eraseA k' dir by simp [replayStep, hd]]
          exact lookupA_eraseA_ne htouch _
      cases hrest : rest.filter (touchesKey k) with
      | nil => rw [hstep]
      | cons q qs => rfl

/-! ## Concrete executions that drive the engine through compaction

A value of `n` bytes of `a` makes the `Set` record `n + 30` bytes long, so
one such record with `n ≥ 2^20` reaches `COMPACTION_THRESHOLD` by itself. -/

/-- A value consisting of `n` repetitions of `a`. -/
def aVal (n : Nat) : String := String.mk (List.replicate n 'a')

/-- The serialized record `Set\x7ba, aVal n\x7d`. -/
def serA (n : Nat) : List Char := encodeL (.Set "a" (aVal n))

/-- The serialized record `Set\x7bb, x\x7d` (31 bytes). -/
def serB : List Char := encodeL (.Set "b" "x")

theorem escape_replicate_a (n : Nat) :
    escape (List.replicate n 'a') = List.replicate n 'a' := by
  induction n with
  | zero => rfl
  | succ n ih =>
    rw [List.replicate_succ]
    have h1 : escape ('a' :: List.replicate n 'a') =
        escChar 'a' ++ escape (List.replicate n 'a') := by simp [escape]
    rw [h1, show escChar 'a' = ['a'] from by decide, ih]
    simp [List.replicate_succ]

instance : DecidableEq (Except Failure KvState) := fun a b =>
  match a, b with
  | .ok x, .ok y => if h : x = y then .isTrue (by rw [h]) else .isFalse (by
      intro he; cases he; exact h rfl)
  | .error x, .error y => if h : x = y then .isTrue (by rw [h]) else .isFalse (by
      intro he; cases he; exact h rfl)
  | .ok _, .error _ => .isFalse (by intro he; cases he)
  | .error _, .ok _ => .isFalse (by intro he; cases he)

theorem serA_length (n : Nat) : (serA n).length = 30 + n := by
  show (setPre ++ escape "a".data ++ setMid ++ escape (List.replicate n 'a') ++
    setSuf).length = 30 + n
  rw [escape_replicate_a]
  rw [show escape "a".data = ['a'] from by decide]
  simp only [List.length_append, List.length_replicate]
  norm_num [setPre, setMid, setSuf]
  omega

theorem serA_decode (n : Nat) : decodeL (serA n) = some (.Set "a" (aVal n)) :=
  decodeL_encodeL _

theorem serA_no_nl (n : Nat) : '\n' ∉ serA n := encodeL_ne_nl _

/-- Shorthands for the segment names allocated during the executions. -/
def fn0 : String := mkLogFileName 0
def fn1 : String := mkLogFileName 1
def fn2 : String := mkLogFileName 2
def fn3 : String := mkLogFileName 3

/-- The freshly opened store on an empty directory. -/
def ngS0 : KvState :=
  { files := [(fn0, [])], keyDir := [], readers := [(fn0, 0)]
    curr := fn0, currSize := 0, nameCtr := 1 }

/-- After compaction of the empty store (triggered by the first oversized
    `set`): only the fresh segment remains. -/
def ngS0c : KvState :=
  { files := [(fn1, [])], keyDir := [], readers := [(fn1, 0)]
    curr := fn1, currSize := 0, nameCtr := 2 }

/-- After `set("a", aVal n)`.  (`currSize` is kept in the exact arithmetic
    shape the operations produce; see `ngS1_currSize`.) -/
def ngS1 (n : Nat) : KvState :=
  { files := [(fn1, [serA n])], keyDir := [("a", ⟨0, fn1⟩)], readers := [(fn1, 0)]
    curr := fn1, currSize := 0 + (serA n).length, nameCtr := 2 }

theorem ngS1_currSize (n : Nat) : (ngS1 n).currSize = 30 + n := by
  show 0 + (serA n).length = 30 + n
  rw [serA_length]
  omega

theorem openStore_empty : openStore [] 0 = .ok ngS0 := by decide

theorem compact_ngS0 : compactLogFiles ngS0 = .ok ngS0c := by decide

theorem takeWhile_no_nl (l : List Char) (h : '\n' ∉ l) (r : List Char) :
    (l ++ '\n' :: r).takeWhile (fun c => c != '\n') = l := by
  induction l with
  | nil => simp
  | cons c cs ih =>
    have hc : ¬ c = '\n' := fun hh => h (hh ▸ List.mem_cons_self c cs)
    have hcs : '\n' ∉ cs := fun hh => h (List.mem_cons_of_mem c hh)
    simp only [List.cons_append, List.takeWhile_cons]
    rw [if_pos (by simpa using hc), ih hcs]

/-- Reading at a position whose remainder is a newline-terminated record:
    the record is returned and the reader cursor ends just past its newline. -/
theorem readFromPosToEol_hit (s : KvState) (nm : String) (cur pos : Nat)
    (lines : List (List Char)) (l tail : List Char)
    (hr : lookupA s.readers nm = some cur) (hf : lookupA s.files nm = some lines)
    (hdrop : (segContent lines).drop pos = l ++ '\n' :: tail) (hnl : '\n' ∉ l) :
    readFromPosToEol s ⟨pos, nm⟩ =
      .ok (l, { s with readers := insertA nm (pos + l.length + 1) s.readers }) := by
  unfold readFromPosToEol
  rw [hr, hf]
  simp only [hdrop, takeWhile_no_nl l hnl tail]
  rw [if_pos (by simp)]

/-- Reading a position that names a segment without a pooled reader panics
    (`get_reader(...).unwrap()`). -/
theorem readFromPosToEol_noreader (s : KvState) (lp : LogPosition)
    (h : lookupA s.readers lp.log_file_name = none) :
    readFromPosToEol s lp = .error .panicked := by
  unfold readFromPosToEol
  rw [h]

theorem set_a_ngS0 (n : Nat) (hn : 2 ^ 20 ≤ n) :
    kvSet ngS0 "a" (aVal n) = (.ok (), ngS1 n) := by
  have hcond : COMPACTION_THRESHOLD ≤ ngS0.currSize + (encodeL (.Set "a" (aVal n))).length := by
    show COMPACTION_THRESHOLD ≤ 0 + (serA n).length
    rw [serA_length]
    show 1024 * 1024 ≤ 0 + (30 + n)
    omega
  show ((match writeCommandLog ngS0 (.Set "a" (aVal n)) with
    | .error e => (.error e, ngS0)
    | .ok (pos, s1) =>
      (.ok (), { s1 with keyDir := insertA "a" pos s1.keyDir })) :
        Except Failure Unit × KvState) =
    (.ok (), ngS1 n)
  rw [writeCommandLog_eq, if_pos hcond, compact_ngS0]
  rfl

/-- After the compaction run triggered by `set("b", "x")` on `ngS1 n` (no
    intervening read): the live `a` record was rewritten into the fresh
    segment `fn3` (rolled over because it alone reaches the threshold), the
    old segment `fn1` was deleted, but the key directory still maps `a` to
    `(0, fn1)`. -/
def ngS1c (n : Nat) : KvState :=
  { files := [(fn2, []), (fn3, [serA n])], keyDir := [("a", ⟨0, fn1⟩)]
    readers := [(fn3, 0), (fn2, 0)], curr := fn3
    currSize := 0 + (serA n).length, nameCtr := 4 }

theorem compact_ngS1 (n : Nat) (hn : 2 ^ 20 ≤ n) :
    compactLogFiles (ngS1 n) = .ok (ngS1c n) := by
  have hroll : COMPACTION_THRESHOLD ≤
      (freshSegment (ngS1 n)).currSize + (encodeL (.Set "a" (aVal n))).length := by
    show COMPACTION_THRESHOLD ≤ 0 + (serA n).length
    rw [serA_length]
    show 1024 * 1024 ≤ 0 + (30 + n)
    omega
  have hsplit : splitOnNL ((segContent [serA n]).drop 0) = [serA n] := by
    show splitOnNL (segContent [serA n]) = [serA n]
    rw [show segContent [serA n] = serA n ++ '\n' :: [] by simp [segContent]]
    rw [splitOnNL_line _ (serA_no_nl n)]
    rfl
  have hscan : scanSegmentLines (ngS1 n).keyDir fn1 [serA n] 0 (freshSegment (ngS1 n)) =
      .ok (0 + (serA n).length + 1,
        appendKept (freshSegment (ngS1 n)) (.Set "a" (aVal n))) := by
    rw [show scanSegmentLines (ngS1 n).keyDir fn1 [serA n] 0 (freshSegment (ngS1 n)) =
        (match decodeL (serA n) with
          | none => .error .panicked
          | some c =>
            if shouldRemoveLog (ngS1 n).keyDir c fn1 0 then
              scanSegmentLines (ngS1 n).keyDir fn1 [] (0 + (serA n).length + 1)
                (freshSegment (ngS1 n))
            else
              scanSegmentLines (ngS1 n).keyDir fn1 [] (0 + (serA n).length + 1)
                (appendKept (freshSegment (ngS1 n)) c)) by
      simp [scanSegmentLines]]
    rw [serA_decode]
    rfl
  show (match compactSegments (ngS1 n).keyDir [fn1] 0 (freshSegment (ngS1 n)) with
      | .error e => (.error e : Except Failure KvState)
      | .ok (_, s2) => removeReaders [fn1] s2) = .ok (ngS1c n)
  have hcs : compactSegments (ngS1 n).keyDir [fn1] 0 (freshSegment (ngS1 n)) =
      .ok (0 + (serA n).length + 1,
        appendKept (freshSegment (ngS1 n)) (.Set "a" (aVal n))) := by
    rw [show compactSegments (ngS1 n).keyDir [fn1] 0 (freshSegment (ngS1 n)) =
        (match scanSegmentLines (ngS1 n).keyDir fn1
            (splitOnNL ((segContent [serA n]).drop 0)) 0 (freshSegment (ngS1 n)) with
          | .error e => .error e
          | .ok (pos', s') => compactSegments (ngS1 n).keyDir [] pos' s') by
      simp [compactSegments,
        show lookupA (freshSegment (ngS1 n)).readers fn1 = some 0 from rfl,
        show lookupA (freshSegment (ngS1 n)).files fn1 = some [serA n] from rfl]]
    rw [hsplit, hscan]
    rfl
  rw [hcs]
  show removeReaders [fn1] (appendKept (freshSegment (ngS1 n)) (.Set "a" (aVal n))) =
    .ok (ngS1c n)
  rw [appendKept_eq, if_pos hroll]
  rfl

/-- After `set("a", aVal n); set("b", "x")`: key `a` dangles on the deleted
    segment `fn1`. -/
def ngS2 (n : Nat) : KvState :=
  { files := [(fn2, []), (fn3, [serA n, serB])]
    keyDir := [("b", ⟨fileSize [serA n], fn3⟩), ("a", ⟨0, fn1⟩)]
    readers := [(fn3, 0), (fn2, 0)], curr := fn3
    currSize := 0 + (serA n).length + serB.length, nameCtr := 4 }

theorem set_b_ngS1 (n : Nat) (hn : 2 ^ 20 ≤ n) :
    kvSet (ngS1 n) "b" "x" = (.ok (), ngS2 n) := by
  have hcond : COMPACTION_THRESHOLD ≤
      (ngS1 n).currSize + (encodeL (.Set "b" "x")).length := by
    show COMPACTION_THRESHOLD ≤ 0 + (serA n).length + (encodeL (.Set "b" "x")).length
    rw [serA_length, show (encodeL (.Set "b" "x")).length = 31 from by decide]
    show 1024 * 1024 ≤ 0 + (30 + n) + 31
    omega
  show ((match writeCommandLog (ngS1 n) (.Set "b" "x") with
    | .error e => (.error e, ngS1 n)
    | .ok (pos, s1) =>
      (.ok (), { s1 with keyDir := insertA "b" pos s1.keyDir })) :
        Except Failure Unit × KvState) =
    (.ok (), ngS2 n)
  rw [writeCommandLog_eq, if_pos hcond, compact_ngS1 n hn]
  rfl

theorem get_a_ngS2 (n : Nat) : kvGet (ngS2 n) "a" = (.error .panicked, ngS2 n) := rfl

/-- After `set("a", aVal n); get("a")`: the pooled reader of `fn1` was left
    at end of file by the read. -/
def gS1 (n : Nat) : KvState :=
  { files := [(fn1, [serA n])], keyDir := [("a", ⟨0, fn1⟩)]
    readers := [(fn1, 0 + (serA n).length + 1)], curr := fn1
    currSize := 0 + (serA n).length, nameCtr := 2 }

theorem get_a_ngS1 (n : Nat) : kvGet (ngS1 n) "a" = (.ok (some (aVal n)), gS1 n) := by
  have hread := readFromPosToEol_hit (ngS1 n) fn1 0 0 [serA n] (serA n) []
    (show lookupA (ngS1 n).readers fn1 = some 0 from rfl)
    (show lookupA (ngS1 n).files fn1 = some [serA n] from rfl)
    (show (segContent [serA n]).drop 0 = serA n ++ '\n' :: [] by simp [segContent])
    (serA_no_nl n)
  show ((match readFromPosToEol (ngS1 n) ⟨0, fn1⟩ with
    | .error e => (.error e, ngS1 n)
    | .ok (line, s') =>
      match decodeL line with
      | none => (.error .corruptLine, s')
      | some (.Set _ v) => (.ok (some v), s')
      | some (.Remove _) => (.ok none, s')) :
        Except Failure (Option String) × KvState) = (.ok (some (aVal n)), gS1 n)
  rw [hread]
  show ((match decodeL (serA n) with
    | none => (.error .corruptLine,
        { ngS1 n with readers := insertA fn1 (0 + (serA n).length + 1) (ngS1 n).readers })
    | some (.Set _ v) => (.ok (some v),
        { ngS1 n with readers := insertA fn1 (0 + (serA n).length + 1) (ngS1 n).readers })
    | some (.Remove _) => (.ok none,
        { ngS1 n with readers := insertA fn1 (0 + (serA n).length + 1) (ngS1 n).readers })) :
      Except Failure (Option String) × KvState) = (.ok (some (aVal n)), gS1 n)
  rw [serA_decode]
  rfl

/-- The compaction run triggered from `gS1 n`: the reader of `fn1` is at end
    of file, so nothing at all is scanned; the only copy of the `a` record
    is deleted together with `fn1`. -/
def gS1c : KvState :=
  { files := [(fn2, [])], keyDir := [("a", ⟨0, fn1⟩)]
    readers := [(fn2, 0)], curr := fn2, currSize := 0, nameCtr := 3 }

theorem compact_gS1 (n : Nat) : compactLogFiles (gS1 n) = .ok gS1c := by
  have hdrop : (segContent [serA n]).drop (0 + (serA n).length + 1) = [] := by
    apply List.drop_eq_nil_of_le
    rw [segContent_length_cons]
    simp [segContent]
  show (match compactSegments (gS1 n).keyDir [fn1] 0 (freshSegment (gS1 n)) with
      | .error e => (.error e : Except Failure KvState)
      | .ok (_, s2) => removeReaders [fn1] s2) = .ok gS1c
  have hcs : compactSegments (gS1 n).keyDir [fn1] 0 (freshSegment (gS1 n)) =
      .ok (0, freshSegment (gS1 n)) := by
    rw [show compactSegments (gS1 n).keyDir [fn1] 0 (freshSegment (gS1 n)) =
        (match scanSegmentLines (gS1 n).keyDir fn1
            (splitOnNL ((segContent [serA n]).drop (0 + (serA n).length + 1))) 0
            (freshSegment (gS1 n)) with
          | .error e => .error e
          | .ok (pos', s') => compactSegments (gS1 n).keyDir [] pos' s') by
      simp [compactSegments,
        show lookupA (freshSegment (gS1 n)).readers fn1 =
          some (0 + (serA n).length + 1) from rfl,
        show lookupA (freshSegment (gS1 n)).files fn1 = some [serA n] from rfl]]
    rw [hdrop]
    rfl
  rw [hcs]
  rfl

/-- After `set("a", aVal n); get("a"); set("b", "x")`: the `a` record is
    gone from disk entirely, and key `a` dangles on the deleted `fn1`. -/
def gS2 : KvState :=
  { files := [(fn2, [serB])], keyDir := [("b", ⟨0, fn2⟩), ("a", ⟨0, fn1⟩)]
    readers := [(fn2, 0)], curr := fn2, currSize := 0 + serB.length, nameCtr := 3 }

theorem set_b_gS1 (n : Nat) (hn : 2 ^ 20 ≤ n) :
    kvSet (gS1 n) "b" "x" = (.ok (), gS2) := by
  have hcond : COMPACTION_THRESHOLD ≤
      (gS1 n).currSize + (encodeL (.Set "b" "x")).length := by
    show COMPACTION_THRESHOLD ≤ 0 + (serA n).length + (encodeL (.Set "b" "x")).length
    rw [serA_length, show (encodeL (.Set "b" "x")).length = 31 from by decide]
    show 1024 * 1024 ≤ 0 + (30 + n) + 31
    omega
  show ((match writeCommandLog (gS1 n) (.Set "b" "x") with
    | .error e => (.error e, gS1 n)
    | .ok (pos, s1) =>
      (.ok (), { s1 with keyDir := insertA "b" pos s1.keyDir })) :
        Except Failure Unit × KvState) =
    (.ok (), gS2)
  rw [writeCommandLog_eq, if_pos hcond, compact_gS1 n]
  rfl

theorem get_a_gS2 : kvGet gS2 "a" = (.error .panicked, gS2) := rfl

theorem get_a_gS1c : kvGet gS1c "a" = (.error .panicked, gS1c) := rfl

/-- The store re-opened on the directory `gS2` leaves behind. -/
def gReo : KvState :=
  { files := [(fn2, [serB])], keyDir := [("b", ⟨0, fn2⟩)]
    readers := [(fn2, 0)], curr := fn2, currSize := 32, nameCtr := 3 }

theorem openStore_gS2 : openStore gS2.files gS2.nameCtr = .ok gReo := by decide

theorem get_a_gReo : kvGet gReo "a" = (.ok none, gReo) := rfl

/-- A read of `a` at `gS1 n` hits the same record again (the seek restores
    the cursor) and leaves the state unchanged. -/
theorem get_a_gS1 (n : Nat) : kvGet (gS1 n) "a" = (.ok (some (aVal n)), gS1 n) := by
  have hread := readFromPosToEol_hit (gS1 n) fn1 (0 + (serA n).length + 1) 0
    [serA n] (serA n) []
    (show lookupA (gS1 n).readers fn1 = some (0 + (serA n).length + 1) from rfl)
    (show lookupA (gS1 n).files fn1 = some [serA n] from rfl)
    (show (segContent [serA n]).drop 0 = serA n ++ '\n' :: [] by simp [segContent])
    (serA_no_nl n)
  show ((match readFromPosToEol (gS1 n) ⟨0, fn1⟩ with
    | .error e => (.error e, gS1 n)
    | .ok (line, s') =>
      match decodeL line with
      | none => (.error .corruptLine, s')
      | some (.Set _ v) => (.ok (some v), s')
      | some (.Remove _) => (.ok none, s')) :
        Except Failure (Option String) × KvState) = (.ok (some (aVal n)), gS1 n)
  rw [hread]
  show ((match decodeL (serA n) with
    | none => (.error .corruptLine,
        { gS1 n with readers := insertA fn1 (0 + (serA n).length + 1) (gS1 n).readers })
    | some (.Set _ v) => (.ok (some v),
        { gS1 n with readers := insertA fn1 (0 + (serA n).length + 1) (gS1 n).readers })
    | some (.Remove _) => (.ok none,
        { gS1 n with readers := insertA fn1 (0 + (serA n).length + 1) (gS1 n).readers })) :
      Except Failure (Option String) × KvState) = (.ok (some (aVal n)), gS1 n)
  rw [serA_decode]
  rfl

/-! ## Remaining supporting lemmas for the claim theorems -/

theorem mem_specKept (keyDir : List (String × LogPosition)) (fileName : String) :
    ∀ (lines : List (List Char)) (off : Nat) (c : CommandLog),
      c ∈ specKept keyDir fileName lines off →
      ∃ l ∈ lines, decodeL l = some c := by
  intro lines
  induction lines with
  | nil => intro off c h; simp [specKept] at h
  | cons l ls ih =>
    intro off c h
    rw [show specKept keyDir fileName (l :: ls) off =
        (match decodeL l with
          | none => []
          | some c2 =>
            if specDrop keyDir fileName off c2 then
              specKept keyDir fileName ls (off + l.length + 1)
            else c2 :: specKept keyDir fileName ls (off + l.length + 1)) from rfl] at h
    match hd : decodeL l with
    | none =>
      rw [hd] at h
      simp at h
    | some c2 =>
      rw [hd] at h
      have h0 : c ∈ (if specDrop keyDir fileName off c2 = true then
          specKept keyDir fileName ls (off + l.length + 1)
        else c2 :: specKept keyDir fileName ls (off + l.length + 1)) := h
      by_cases hdrop : specDrop keyDir fileName off c2
      · rw [if_pos hdrop] at h0
        rcases ih _ _ h0 with ⟨l2, hl2, hc2⟩
        exact ⟨l2, List.mem_cons_of_mem _ hl2, hc2⟩
      · rw [if_neg (by simpa using hdrop)] at h0
        rcases List.mem_cons.1 h0 with rfl | h2
        · exact ⟨l, List.mem_cons_self _ _, hd⟩
        · rcases ih _ _ h2 with ⟨l2, hl2, hc2⟩
          exact ⟨l2, List.mem_cons_of_mem _ hl2, hc2⟩

theorem mem_specKeptAll (keyDir : List (String × LogPosition)) :
    ∀ (segs : List (String × List (List Char))) (off : Nat) (c : CommandLog),
      c ∈ specKeptAll keyDir segs off →
      ∃ q ∈ segs, ∃ l ∈ q.2, decodeL l = some c := by
  intro segs
  induction segs with
  | nil => intro off c h; simp [specKeptAll] at h
  | cons q qs ih =>
    intro off c h
    cases q with
    | mk nm lines =>
      rw [show specKeptAll keyDir ((nm, lines) :: qs) off =
          specKept keyDir nm lines off ++ specKeptAll keyDir qs (off + sumBytes lines)
          from rfl] at h
      rcases List.mem_append.1 h with h1 | h2
      · rcases mem_specKept keyDir nm lines off c h1 with ⟨l, hl, hc⟩
        exact ⟨(nm, lines), List.mem_cons_self _ _, l, hl, hc⟩
      · rcases ih _ _ h2 with ⟨q2, hq2, hrest⟩
        exact ⟨q2, List.mem_cons_of_mem _ hq2, hrest⟩

theorem lookupA_insertA_isSome {α : Type} {key : String} {l : List (String × α)}
    (v : α) (nm : String) (hk : (lookupA l key).isSome = true) :
    (lookupA (insertA key v l) nm).isSome = (lookupA l nm).isSome := by
  by_cases h : key = nm
  · subst h
    rw [lookupA_insertA_self, hk]
    rfl
  · rw [lookupA_insertA_ne h]

/-- A successful `read_from_pos_to_eol` changes nothing but a reader cursor:
    the directory contents, key directory, writer fields, name counter and
    the reader pool's key set are untouched. -/
theorem readFromPosToEol_frame (s : KvState) (lp : LogPosition) :
    ∀ line s', readFromPosToEol s lp = .ok (line, s') →
      s'.keyDir = s.keyDir ∧ s'.files = s.files ∧ s'.curr = s.curr ∧
      s'.currSize = s.currSize ∧ s'.nameCtr = s.nameCtr ∧
      ∀ nm, (lookupA s'.readers nm).isSome = (lookupA s.readers nm).isSome := by
  intro line s' h
  unfold readFromPosToEol at h
  cases hr : lookupA s.readers lp.log_file_name with
  | none => rw [hr] at h; simp at h
  | some cur =>
    rw [hr] at h
    cases hf : lookupA s.files lp.log_file_name with
    | none => rw [hf] at h; simp at h
    | some lines =>
      rw [hf] at h
      simp only [Except.ok.injEq, Prod.mk.injEq] at h
      obtain ⟨hline, hs⟩ := h
      subst hs
      refine ⟨rfl, rfl, rfl, rfl, rfl, fun nm => ?_⟩
      exact lookupA_insertA_isSome _ nm (by rw [hr]; rfl)

theorem ngS1c_currSize (n : Nat) : (ngS1c n).currSize = 30 + n := by
  show 0 + (serA n).length = 30 + n
  rw [serA_length]
  omega

/-- An absent key: `get` returns `.ok none` and the state unchanged. -/
theorem kvGet_eq_none (s : KvState) (k : String)
    (hk : lookupA s.keyDir k = none) : kvGet s k = (.ok none, s) := by
  unfold kvGet
  rw [hk]

/-- A present key: `get` is the read at the stored position. -/
theorem kvGet_eq_some (s : KvState) (k : String) (lp : LogPosition)
    (hk : lookupA s.keyDir k = some lp) :
    kvGet s k =
      match readFromPosToEol s lp with
      | .error e => (.error e, s)
      | .ok (line, s2) =>
        match decodeL line with
        | none => (.error .corruptLine, s2)
        | some (.Set k2 v) => (.ok (some v), s2)
        | some (.Remove k2) => (.ok none, s2) := by
  unfold kvGet
  rw [hk]

/-- A present key whose record reads back: `get` decodes the read line. -/
theorem kvGet_eq_ok (s : KvState) (k : String) (lp : LogPosition)
    (line : List Char) (s2 : KvState)
    (hk : lookupA s.keyDir k = some lp)
    (hres : readFromPosToEol s lp = .ok (line, s2)) :
    kvGet s k =
      match decodeL line with
      | none => (.error .corruptLine, s2)
      | some (.Set k2 v) => (.ok (some v), s2)
      | some (.Remove k2) => (.ok none, s2) := by
  rw [kvGet_eq_some s k lp hk, hres]

/-! ## The claims -/

/-- C1 is refuted by the code: compaction does not preserve the observable
    store.  On the reachable trace `open (empty dir); set("a", 2^20 bytes of
    a); get("a")`, the key `a` reads back its value immediately before the
    compaction run, but `get("a")` immediately after that run panics: the
    run deleted the only segment holding the record while leaving the key
    directory pointing at it. -/
theorem C1_compaction_changes_get :
    openStore [] 0 = .ok ngS0 ∧
    kvSet ngS0 "a" (aVal (2 ^ 20)) = (.ok (), ngS1 (2 ^ 20)) ∧
    kvGet (ngS1 (2 ^ 20)) "a" = (.ok (some (aVal (2 ^ 20))), gS1 (2 ^ 20)) ∧
    (kvGet (gS1 (2 ^ 20)) "a").1 = .ok (some (aVal (2 ^ 20))) ∧
    compactLogFiles (gS1 (2 ^ 20)) = .ok gS1c ∧
    (kvGet gS1c "a").1 = .error .panicked ∧
    (.error .panicked : Except Failure (Option String)) ≠ .ok (some (aVal (2 ^ 20))) :=
  ⟨openStore_empty, set_a_ngS0 _ (le_refl _), get_a_ngS1 _,
    by rw [get_a_gS1], compact_gS1 _, by rw [get_a_gS1c],
    fun h => Except.noConfusion h⟩

/-- C2 is refuted by the code: the persistence round-trip fails.  On the
    reachable trace `open (empty dir); set("a", 2^20 bytes of a); get("a");
    set("b", "x")` (all operations successful), `get("a")` before the close
    panics — the compaction triggered by the second `set` lost the `a`
    record, because the pooled reader of its segment had been left at end of
    file by the earlier `get` and the compactor streams from the current
    cursor — while after re-opening the same directory `get("a")` returns
    `.ok none`.  (Close itself is a no-op in the model: every written byte
    is already on disk.) -/
theorem C2_reopen_changes_get :
    openStore [] 0 = .ok ngS0 ∧
    kvSet ngS0 "a" (aVal (2 ^ 20)) = (.ok (), ngS1 (2 ^ 20)) ∧
    kvGet (ngS1 (2 ^ 20)) "a" = (.ok (some (aVal (2 ^ 20))), gS1 (2 ^ 20)) ∧
    kvSet (gS1 (2 ^ 20)) "b" "x" = (.ok (), gS2) ∧
    (kvGet gS2 "a").1 = .error .panicked ∧
    openStore gS2.files gS2.nameCtr = .ok gReo ∧
    (kvGet gReo "a").1 = .ok none ∧
    (.error .panicked : Except Failure (Option String)) ≠ .ok none :=
  ⟨openStore_empty, set_a_ngS0 _ (le_refl _), get_a_ngS1 _, set_b_gS1 _ (le_refl _),
    rfl, openStore_gS2, rfl, fun h => Except.noConfusion h⟩

/-- C3 is refuted by the code: the key-directory invariant is broken on the
    reachable trace `open (empty dir); set("a", 2^20 bytes of a);
    set("b", "x")`.  The compaction triggered by the second `set` rewrote
    the kept `a` record into the fresh segment `fn3` (at offset 0) and
    deleted the old segment `fn1`, but never rewrote the directory entry:
    `a` still maps to `(0, fn1)`, a segment that no longer exists on disk. -/
theorem C3_keydir_invariant_broken :
    openStore [] 0 = .ok ngS0 ∧
    kvSet ngS0 "a" (aVal (2 ^ 20)) = (.ok (), ngS1 (2 ^ 20)) ∧
    kvSet (ngS1 (2 ^ 20)) "b" "x" = (.ok (), ngS2 (2 ^ 20)) ∧
    lookupA (ngS2 (2 ^ 20)).keyDir "a" = some ⟨0, fn1⟩ ∧
    lookupA (ngS2 (2 ^ 20)).files fn1 = none ∧
    lookupA (ngS2 (2 ^ 20)).files fn3 = some [serA (2 ^ 20), serB] :=
  ⟨openStore_empty, set_a_ngS0 _ (le_refl _), set_b_ngS1 _ (le_refl _),
    rfl, rfl, rfl⟩

/-- C4 is refuted by the code: read-your-writes fails within one engine
    instance.  On the reachable trace `open (empty dir); set("a", 2^20 bytes
    of a); set("b", "x")` — the second `set` is the only intervening
    operation and does not mutate `a` — `get("a")` panics (its directory
    entry dangles on the segment deleted by the compaction the second `set`
    triggered) instead of returning the value written for `a`. -/
theorem C4_read_your_writes_broken :
    openStore [] 0 = .ok ngS0 ∧
    kvSet ngS0 "a" (aVal (2 ^ 20)) = (.ok (), ngS1 (2 ^ 20)) ∧
    kvSet (ngS1 (2 ^ 20)) "b" "x" = (.ok (), ngS2 (2 ^ 20)) ∧
    kvGet (ngS2 (2 ^ 20)) "a" = (.error .panicked, ngS2 (2 ^ 20)) ∧
    (kvGet (ngS2 (2 ^ 20)) "a").1 ≠ .ok (some (aVal (2 ^ 20))) :=
  ⟨openStore_empty, set_a_ngS0 _ (le_refl _), set_b_ngS1 _ (le_refl _),
    get_a_ngS2 _, fun h => Except.noConfusion h⟩

/-- C5 is confirmed: the compactor's drop rule and single scan cursor
    refine the claim.  `should_remove_log` equals the claim-side `specDrop`
    (drop iff `Remove`, or `Set` with the key absent, or `Set` whose
    directory entry differs from `(scanned segment, scan_offset)`), and on
    any well-formed state the whole scan loop equals the claim-side fold:
    the cursor starts at 0 once and accumulates `len(line) + 1` per scanned
    record across segment boundaries without resetting (final cursor =
    total scanned bytes), and exactly the non-dropped records are
    re-encoded and appended, in scan order, to the new active segment
    (`appendKept` re-encodes with `encodeL` and appends via the writer). -/
theorem C5_compactor_drop_rule (s : KvState) (hwf : WF s) :
    (∀ (keyDir : List (String × LogPosition)) (c : CommandLog)
        (fileName : String) (off : Nat),
      shouldRemoveLog keyDir c fileName off = specDrop keyDir fileName off c) ∧
    compactSegments s.keyDir (readerList s) 0 (freshSegment s) =
      .ok (((oldSegs s).map (fun q => sumBytes q.2)).sum,
        List.foldl appendKept (freshSegment s) (specKeptAll s.keyDir (oldSegs s) 0)) ∧
    compactLogFiles s =
      removeReaders (readerList s)
        (List.foldl appendKept (freshSegment s) (specKeptAll s.keyDir (oldSegs s) 0)) :=
  ⟨shouldRemoveLog_eq_specDrop, (compactLogFiles_spec s hwf).1,
    (compactLogFiles_spec s hwf).2.1⟩

theorem C5_compactor_drop_rule_witness :
    WF ngS0 ∧
    ((∀ (keyDir : List (String × LogPosition)) (c : CommandLog)
        (fileName : String) (off : Nat),
      shouldRemoveLog keyDir c fileName off = specDrop keyDir fileName off c) ∧
    compactSegments ngS0.keyDir (readerList ngS0) 0 (freshSegment ngS0) =
      .ok (((oldSegs ngS0).map (fun q => sumBytes q.2)).sum,
        List.foldl appendKept (freshSegment ngS0) (specKeptAll ngS0.keyDir (oldSegs ngS0) 0)) ∧
    compactLogFiles ngS0 =
      removeReaders (readerList ngS0)
        (List.foldl appendKept (freshSegment ngS0)
          (specKeptAll ngS0.keyDir (oldSegs ngS0) 0))) :=
  ⟨by decide, C5_compactor_drop_rule ngS0 (by decide)⟩

/-- C6 is confirmed: recovery replays all `.cmdlog` segments in ascending
    filename order (the replay list is sorted and is a permutation of the
    `.cmdlog` names present), maintaining a per-segment byte offset that
    grows by `len(line) + 1` per record (embodied in `annotLines`, which
    starts at 0 for each segment), and the resulting key directory maps
    exactly the keys whose last record in replay order is a `Set`, each to
    that record's `(segment, offset)` (the `lastWins` characterization;
    keys whose last record is a `Remove` are absent). -/
theorem C6_recovery_last_wins (files : List (String × List (List Char)))
    (hdec : ∀ q ∈ files, ∀ l ∈ q.2, (decodeL l).isSome) :
    List.Sorted (fun a b => strLe a b = true) (listLogFiles files) ∧
    List.Perm (listLogFiles files) ((files.map (fun q => q.1)).filter extCmdlog) ∧
    ∃ dir, initWithCommandLogs files = .ok dir ∧
      ∀ k, lookupA dir k = lastWins (annotFiles files (listLogFiles files)) k := by
  refine ⟨sorted_sortNames _, perm_sortNames _, ?_⟩
  have hlk : ∀ nm ∈ listLogFiles files, (lookupA files nm).isSome := by
    intro nm hm
    exact lookup_isSome_of_mem_fst (List.mem_of_mem_filter (mem_sortNames.1 hm))
  have hdec2 : ∀ nm ∈ listLogFiles files, ∀ l ∈ (lookupA files nm).getD [],
      (decodeL l).isSome := by
    intro nm hm l hl
    rcases Option.isSome_iff_exists.1 (hlk nm hm) with ⟨lines, hlines⟩
    rw [hlines] at hl
    exact hdec _ (mem_of_lookupA hlines) l hl
  refine ⟨List.foldl replayStep [] (annotFiles files (listLogFiles files)), ?_, ?_⟩
  · exact replayFiles_eq_foldl files (listLogFiles files) [] hlk hdec2
  · intro k
    rw [lookup_foldl_replayStep]
    unfold lastWins
    cases (List.filter (touchesKey k) (annotFiles files (listLogFiles files))).getLast? with
    | none => rfl
    | some r => rfl

theorem C6_recovery_last_wins_witness :
    (∀ q ∈ [(fn2, [serB])], ∀ l ∈ q.2, (decodeL l).isSome) ∧
    (List.Sorted (fun a b => strLe a b = true) (listLogFiles [(fn2, [serB])]) ∧
    List.Perm (listLogFiles [(fn2, [serB])])
      (([(fn2, [serB])].map (fun q => q.1)).filter extCmdlog) ∧
    ∃ dir, initWithCommandLogs [(fn2, [serB])] = .ok dir ∧
      ∀ k, lookupA dir k =
        lastWins (annotFiles [(fn2, [serB])] (listLogFiles [(fn2, [serB])])) k) :=
  ⟨by decide, C6_recovery_last_wins [(fn2, [serB])] (by decide)⟩

/-- C7 is refuted as stated: the tracked size of the active segment can be
    at or above `COMPACTION_THRESHOLD` at the moment a record is about to
    be appended.  On the reachable trace `open (empty dir); set("a", 2^20
    bytes of a)`, the second write `set("b", "x")` does trigger compaction
    first, but the compaction run re-appends the kept oversized `a` record,
    leaving the fresh active segment at `2^20 + 30 ≥ 2^20` bytes — and the
    `b` record is then appended to it with no further gate check. -/
theorem C7_gate_counterexample :
    openStore [] 0 = .ok ngS0 ∧
    kvSet ngS0 "a" (aVal (2 ^ 20)) = (.ok (), ngS1 (2 ^ 20)) ∧
    compactLogFiles (ngS1 (2 ^ 20)) = .ok (ngS1c (2 ^ 20)) ∧
    COMPACTION_THRESHOLD ≤ (ngS1c (2 ^ 20)).currSize ∧
    writeCommandLog (ngS1 (2 ^ 20)) (.Set "b" "x") =
      .ok (writerWrite (ngS1c (2 ^ 20)) (encodeL (.Set "b" "x"))) := by
  refine ⟨openStore_empty, set_a_ngS0 _ (le_refl _), compact_ngS1 _ (le_refl _), ?_, ?_⟩
  · rw [ngS1c_currSize]
    decide
  · have hcond : COMPACTION_THRESHOLD ≤
        (ngS1 (2 ^ 20)).currSize + (encodeL (.Set "b" "x")).length := by
      rw [ngS1_currSize, show (encodeL (.Set "b" "x")).length = 31 from by decide]
      decide
    rw [writeCommandLog_eq, if_pos hcond, compact_ngS1 _ (le_refl _)]

/-- C7, amended: the pre-write gate holds whenever every record the
    compaction run keeps (the claim-side kept list `specKeptAll`) is
    itself smaller than the threshold (the counterexample
    `C7_gate_counterexample` shows the unrestricted claim fails for an
    oversized kept record).  Concretely: during compaction a fresh segment
    is allocated before any kept record that would cross the threshold, so
    the size at that append is always strictly below it; a `write_command_log`
    whose record keeps the size below the threshold appends directly from a
    below-threshold size; and one that would reach the threshold compacts
    first and appends to the compacted active segment, whose size is below
    the threshold provided the kept records are small. -/
theorem C7_pre_write_gate_amended (s : KvState) (c : CommandLog) (hwf : WF s)
    (hsmall : ∀ c2 ∈ specKeptAll s.keyDir (oldSegs s) 0,
      (encodeL c2).length < COMPACTION_THRESHOLD) :
    (∀ (s2 : KvState) (c2 : CommandLog),
      (if COMPACTION_THRESHOLD ≤ s2.currSize + (encodeL c2).length then freshSegment s2
        else s2).currSize < COMPACTION_THRESHOLD) ∧
    (¬ COMPACTION_THRESHOLD ≤ s.currSize + (encodeL c).length →
      writeCommandLog s c = .ok (writerWrite s (encodeL c)) ∧
      s.currSize < COMPACTION_THRESHOLD) ∧
    (COMPACTION_THRESHOLD ≤ s.currSize + (encodeL c).length →
      ∃ s1, compactLogFiles s = .ok s1 ∧
        writeCommandLog s c = .ok (writerWrite s1 (encodeL c)) ∧
        s1.currSize < COMPACTION_THRESHOLD) := by
  refine ⟨fun s2 c2 => appendKept_moment_lt s2 c2, ?_, ?_⟩
  · intro hgate
    refine ⟨?_, ?_⟩
    · rw [writeCommandLog_eq, if_neg hgate]
    · omega
  · intro hgate
    obtain ⟨-, -, s1, hok, -, hcs, -⟩ := compactLogFiles_spec s hwf
    refine ⟨s1, hok, ?_, ?_⟩
    · rw [writeCommandLog_eq, if_pos hgate, hok]
    · rw [hcs]
      apply foldl_appendKept_size_lt
      · exact hsmall
      · show (0 : Nat) < COMPACTION_THRESHOLD
        decide

theorem encodeL_set_a_length (n : Nat) :
    (encodeL (.Set "a" (aVal n))).length = 30 + n := serA_length n

/-- The amended gate theorem instantiated twice at the freshly opened store
    (whose compaction keeps nothing, so the kept-records-small hypothesis
    holds): once with a small record, whose append stays below the gate
    (the direct-append implication fires), and once with an oversized
    record, which does reach the gate (the compact-first implication
    fires). -/
theorem C7_pre_write_gate_amended_witness :
    WF ngS0 ∧
    (∀ c2 ∈ specKeptAll ngS0.keyDir (oldSegs ngS0) 0,
      (encodeL c2).length < COMPACTION_THRESHOLD) ∧
    ¬ COMPACTION_THRESHOLD ≤ ngS0.currSize + (encodeL (.Set "k" "v")).length ∧
    COMPACTION_THRESHOLD ≤ ngS0.currSize + (encodeL (.Set "a" (aVal (2 ^ 20)))).length ∧
    ((∀ (s2 : KvState) (c2 : CommandLog),
      (if COMPACTION_THRESHOLD ≤ s2.currSize + (encodeL c2).length then freshSegment s2
        else s2).currSize < COMPACTION_THRESHOLD) ∧
    (¬ COMPACTION_THRESHOLD ≤ ngS0.currSize + (encodeL (.Set "k" "v")).length →
      writeCommandLog ngS0 (.Set "k" "v") =
        .ok (writerWrite ngS0 (encodeL (.Set "k" "v"))) ∧
      ngS0.currSize < COMPACTION_THRESHOLD) ∧
    (COMPACTION_THRESHOLD ≤ ngS0.currSize + (encodeL (.Set "k" "v")).length →
      ∃ s1, compactLogFiles ngS0 = .ok s1 ∧
        writeCommandLog ngS0 (.Set "k" "v") =
          .ok (writerWrite s1 (encodeL (.Set "k" "v"))) ∧
        s1.currSize < COMPACTION_THRESHOLD)) ∧
    ((∀ (s2 : KvState) (c2 : CommandLog),
      (if COMPACTION_THRESHOLD ≤ s2.currSize + (encodeL c2).length then freshSegment s2
        else s2).currSize < COMPACTION_THRESHOLD) ∧
    (¬ COMPACTION_THRESHOLD ≤ ngS0.currSize + (encodeL (.Set "a" (aVal (2 ^ 20)))).length →
      writeCommandLog ngS0 (.Set "a" (aVal (2 ^ 20))) =
        .ok (writerWrite ngS0 (encodeL (.Set "a" (aVal (2 ^ 20))))) ∧
      ngS0.currSize < COMPACTION_THRESHOLD) ∧
    (COMPACTION_THRESHOLD ≤ ngS0.currSize + (encodeL (.Set "a" (aVal (2 ^ 20)))).length →
      ∃ s1, compactLogFiles ngS0 = .ok s1 ∧
        writeCommandLog ngS0 (.Set "a" (aVal (2 ^ 20))) =
          .ok (writerWrite s1 (encodeL (.Set "a" (aVal (2 ^ 20))))) ∧
        s1.currSize < COMPACTION_THRESHOLD)) := by
  have hsm : ∀ c2 ∈ specKeptAll ngS0.keyDir (oldSegs ngS0) 0,
      (encodeL c2).length < COMPACTION_THRESHOLD := by
    intro c2 hc2
    rw [show specKeptAll ngS0.keyDir (oldSegs ngS0) 0 = [] from rfl] at hc2
    simp at hc2
  have hbig : COMPACTION_THRESHOLD ≤
      ngS0.currSize + (encodeL (.Set "a" (aVal (2 ^ 20)))).length := by
    rw [encodeL_set_a_length]
    decide
  exact ⟨by decide, hsm, by decide, hbig,
    C7_pre_write_gate_amended ngS0 (.Set "k" "v") (by decide) hsm,
    C7_pre_write_gate_amended ngS0 (.Set "a" (aVal (2 ^ 20))) (by decide) hsm⟩

/-- C8 is confirmed: the public API's error contract.  `get` on a key
    absent from the directory returns `.ok none` (no error, state
    untouched); `set` and `remove` with an empty key fail with
    `KeyNotProvided` and leave the state unchanged; `remove` on an absent
    key fails with `KeyNotFound` and returns the state unchanged (nothing
    is appended to any log); and on a well-formed state, `set` with a
    non-empty key succeeds (the model has no I/O errors). -/
theorem C8_error_contract (s : KvState) (k v : String) (hwf : WF s) :
    (lookupA s.keyDir k = none → kvGet s k = (.ok none, s)) ∧
    kvSet s "" v = (.error .keyNotProvided, s) ∧
    kvRemove s "" = (.error .keyNotProvided, s) ∧
    (¬ k = "" → lookupA s.keyDir k = none → kvRemove s k = (.error .keyNotFound, s)) ∧
    (¬ k = "" → ∃ s1, kvSet s k v = (.ok (), s1)) := by
  refine ⟨?_, rfl, rfl, ?_, ?_⟩
  · intro hk
    unfold kvGet
    rw [hk]
  · intro hne hk
    unfold kvRemove
    rw [if_neg hne, hk]
    rfl
  · intro hne
    unfold kvSet
    rw [if_neg hne]
    by_cases hgate : COMPACTION_THRESHOLD ≤ s.currSize + (encodeL (.Set k v)).length
    · obtain ⟨-, -, s1, hok, -, -, -⟩ := compactLogFiles_spec s hwf
      rw [writeCommandLog_eq, if_pos hgate, hok]
      exact ⟨_, rfl⟩
    · rw [writeCommandLog_eq, if_neg hgate]
      exact ⟨_, rfl⟩

theorem C8_error_contract_witness :
    WF ngS0 ∧
    ((lookupA ngS0.keyDir "k" = none → kvGet ngS0 "k" = (.ok none, ngS0)) ∧
    kvSet ngS0 "" "v" = (.error .keyNotProvided, ngS0) ∧
    kvRemove ngS0 "" = (.error .keyNotProvided, ngS0) ∧
    (¬ "k" = "" → lookupA ngS0.keyDir "k" = none →
      kvRemove ngS0 "k" = (.error .keyNotFound, ngS0)) ∧
    (¬ "k" = "" → ∃ s1, kvSet ngS0 "k" "v" = (.ok (), s1))) :=
  ⟨by decide, C8_error_contract ngS0 "k" "v" (by decide)⟩

/-- C9 is confirmed: the compactor's eviction step never deletes the
    segment that is active at eviction time.  The evicted set is the
    pre-compaction reader-pool snapshot, whose names were all generated
    before the run (at counters below `nameCtr`), while the active segment
    at eviction is a name generated during the run (at a counter at least
    `nameCtr`); the name generator is injective, so the active segment is
    not in the snapshot.  (In the model, `removeReaders` — the eviction —
    is the only operation that removes files.) -/
theorem C9_active_segment_never_evicted (s s2 : KvState) (hwf : WF s)
    (hrun : compactLogFiles s = .ok s2) :
    s2.curr ∉ readerList s := by
  obtain ⟨-, -, s3, hok, -, -, j, hj, hcurr⟩ := compactLogFiles_spec s hwf
  rw [hrun] at hok
  injection hok with he
  subst he
  intro hmem
  exact (WF_readerList_gen hwf _ hmem).ne_gen hj hcurr

theorem C9_active_segment_never_evicted_witness :
    WF ngS0 ∧ compactLogFiles ngS0 = .ok ngS0c ∧ ngS0c.curr ∉ readerList ngS0 :=
  ⟨by decide, compact_ngS0,
    C9_active_segment_never_evicted ngS0 ngS0c (by decide) compact_ngS0⟩

/-- C10 is confirmed: `get` never modifies the key directory, and its only
    side effect on the engine state is moving reader cursors — the on-disk
    files, the active segment and its tracked size, the name counter and
    the reader pool's key set are all unchanged, for every key (present,
    absent, dangling, or mapping to a `Remove` record).  (The flush in
    `writer_pool.sync()` is a no-op here: the model keeps every written
    byte on disk.) -/
theorem C10_get_is_read_only (s : KvState) (k : String) :
    (kvGet s k).2.keyDir = s.keyDir ∧
    (kvGet s k).2.files = s.files ∧
    (kvGet s k).2.curr = s.curr ∧
    (kvGet s k).2.currSize = s.currSize ∧
    (kvGet s k).2.nameCtr = s.nameCtr ∧
    ∀ nm, (lookupA (kvGet s k).2.readers nm).isSome = (lookupA s.readers nm).isSome := by
  cases hk : lookupA s.keyDir k with
  | none =>
    rw [kvGet_eq_none s k hk]
    exact ⟨rfl, rfl, rfl, rfl, rfl, fun nm => rfl⟩
  | some lp =>
    cases hres : readFromPosToEol s lp with
    | error e =>
      rw [show kvGet s k = (.error e, s) from by rw [kvGet_eq_some s k lp hk, hres]]
      exact ⟨rfl, rfl, rfl, rfl, rfl, fun nm => rfl⟩
    | ok p =>
      cases p with
      | mk line s2 =>
        obtain ⟨h1, h2, h3, h4, h5, h6⟩ := readFromPosToEol_frame s lp line s2 hres
        rw [kvGet_eq_ok s k lp line s2 hk hres]
        cases decodeL line with
        | none => exact ⟨h1, h2, h3, h4, h5, h6⟩
        | some c =>
          cases c with
          | Set k2 v => exact ⟨h1, h2, h3, h4, h5, h6⟩
          | Remove k2 => exact ⟨h1, h2, h3, h4, h5, h6⟩

end Kvs
